import Mathlib

/-! Chat server: room, presence and messaging coordinator.

A shallow embedding of `src/server/index.js`.  The three process-level
containers (`users`, `rooms`, `roomUsers`) become one explicit `State`, every
socket handler becomes a pure function from the state, the connection and the
request to a new state, the answer passed to the callback and the list of
transport effects it performed.

JavaScript strings are modelled as their sequence of UTF-16 code units, which
is what `length`, `slice` and the regular expression of the source work on.
-/

namespace ChatServer

/-! ## Strings and values -/

/-- A JavaScript string: the list of its UTF-16 code units. -/
abbrev JSString := List Nat

/-- A value found in a field of a request object: a string, or anything else
(number, object, undefined ...), for which `typeof v !== 'string'`. -/
inductive JSValue where
  | str (s : JSString)
  | other
  deriving DecidableEq, Repr

/-- The code units removed by `String.prototype.trim`: the ECMAScript WhiteSpace
and LineTerminator code points. -/
def isWhiteSpace (c : Nat) : Bool :=
  c == 9 || c == 10 || c == 11 || c == 12 || c == 13 || c == 32 || c == 160 ||
  c == 5760 || (8192 ≤ c && c ≤ 8202) || c == 8232 || c == 8233 || c == 8239 ||
  c == 8287 || c == 12288 || c == 65279

/-- The method `String.prototype.trim`: strips white space at both ends. -/
def trim (s : JSString) : JSString :=
  ((s.dropWhile isWhiteSpace).reverse.dropWhile isWhiteSpace).reverse

/-- The call `s.slice(0, n)` for a non-negative `n`. -/
def slice0 (n : Nat) (s : JSString) : JSString :=
  s.take n

/-- Source: `sanitizeInput(input)`. Non-strings give the empty string; strings
are trimmed and then cut to their first 200 code units. -/
def sanitizeInput (input : JSValue) : JSString :=
  match input with
  | .other => []
  | .str s => slice0 200 (trim s)

/-- One character of the class `[a-zA-Z0-9_]`. -/
def isWordChar (c : Nat) : Bool :=
  (97 ≤ c && c ≤ 122) || (65 ≤ c && c ≤ 90) || (48 ≤ c && c ≤ 57) || c == 95

/-- The test `/^[a-zA-Z0-9_]+$/.test(s)`. -/
def wordRegexTest (s : JSString) : Bool :=
  !s.isEmpty && s.all isWordChar

/-- Source: `isValidUsername(username)`. The argument is sanitized once more
and the checks are made on that second copy. -/
def isValidUsername (username : JSValue) : Bool :=
  match username with
  | .other => false
  | .str s =>
    if s.isEmpty then false
    else
      let sanitized := sanitizeInput (.str s)
      decide (2 ≤ sanitized.length) && decide (sanitized.length ≤ 20) && wordRegexTest sanitized

/-- The method `String.prototype.toLowerCase` on one code unit. It is exact on
ASCII and on white space, the only code units a name that passed
`isValidUsername` can hold (`units_of_isValidUsername`), and the source
lower-cases no other string. -/
def lowerUnit (c : Nat) : Nat :=
  if 65 ≤ c ∧ c ≤ 90 then c + 32 else c

/-- The method `String.prototype.toLowerCase` (see `lowerUnit`). -/
def toLowerCase (s : JSString) : JSString :=
  s.map lowerUnit

/-- The pattern `^[A-Za-z0-9_]{2,20}$` of the specification. -/
def matchesNamePattern (s : JSString) : Prop :=
  2 ≤ s.length ∧ s.length ≤ 20 ∧ ∀ c ∈ s, isWordChar c = true

instance (s : JSString) : Decidable (matchesNamePattern s) := by
  unfold matchesNamePattern; infer_instance

/-- No white space at the start of the string. -/
def noLeadingWhiteSpace (s : JSString) : Prop :=
  ∀ c, s.head? = some c → isWhiteSpace c = false

/-- No white space at the end of the string. -/
def noTrailingWhiteSpace (s : JSString) : Prop :=
  ∀ c, s.getLast? = some c → isWhiteSpace c = false

instance (s : JSString) : Decidable (noLeadingWhiteSpace s) := by
  unfold noLeadingWhiteSpace
  cases s with
  | nil => exact isTrue (by simp)
  | cons a t =>
    exact decidable_of_iff (isWhiteSpace a = false) (by simp)

instance (s : JSString) : Decidable (noTrailingWhiteSpace s) := by
  unfold noTrailingWhiteSpace
  cases h : s.getLast? with
  | none => exact isTrue (by simp)
  | some a =>
    exact decidable_of_iff (isWhiteSpace a = false) (by simp)

/-! ## Insertion-ordered maps and sets -/

section Containers

variable {κ α : Type} [DecidableEq κ]

/-- The method `Map.prototype.get`. -/
def mapGet : List (κ × α) → κ → Option α
  | [], _ => none
  | (k', v) :: rest, k => if k' = k then some v else mapGet rest k

/-- The method `Map.prototype.has`. -/
def mapHas (m : List (κ × α)) (k : κ) : Bool :=
  (mapGet m k).isSome

/-- The method `Map.prototype.set`: an existing key keeps its place, a new key
goes to the end. -/
def mapSet : List (κ × α) → κ → α → List (κ × α)
  | [], k, v => [(k, v)]
  | (k', v') :: rest, k, v =>
    if k' = k then (k, v) :: rest else (k', v') :: mapSet rest k v

/-- The method `Map.prototype.delete`. -/
def mapDelete (m : List (κ × α)) (k : κ) : List (κ × α) :=
  m.filter (fun e => decide (e.1 ≠ k))

/-- The method `Set.prototype.has`. -/
def setHas (s : List κ) (x : κ) : Bool :=
  decide (x ∈ s)

/-- The method `Set.prototype.add`: a new element goes to the end. -/
def setAdd (s : List κ) (x : κ) : List κ :=
  if x ∈ s then s else s ++ [x]

/-- The method `Set.prototype.delete`. -/
def setDelete (s : List κ) (x : κ) : List κ :=
  s.filter (fun y => decide (y ≠ x))

end Containers

/-! ## State -/

/-- The identity of a connection (`socket.id`). -/
abbrev ConnId := Nat

/-- A value of the `users` map: `{ username, room }`, where `room` is `null`
or a string. -/
structure User where
  username : JSString
  room : Option JSString
  deriving DecidableEq, Repr

/-- The in-memory storage of the server. -/
structure State where
  /-- Field `users`: socketId to user. -/
  users : List (ConnId × User)
  /-- Field `rooms`: the available rooms. -/
  rooms : List JSString
  /-- Field `roomUsers`: room to the set of usernames. -/
  roomUsers : List (JSString × List JSString)
  deriving DecidableEq, Repr

/-- The string `general`. -/
def general : JSString := [103, 101, 110, 101, 114, 97, 108]

/-- The storage at start-up: no user, the room `general`, no membership. -/
def initial : State :=
  { users := [], rooms := [general], roomUsers := [] }

/-- Source: `isUsernameTaken(username)`. -/
def isUsernameTaken (users : List (ConnId × User)) (username : JSString) : Bool :=
  users.any (fun e => decide (toLowerCase e.2.username = toLowerCase username))

/-! ## Requests, answers and effects -/

/-- The names of the events the server broadcasts. -/
inductive EventName where
  | userLeft
  | userJoined
  | newMessage
  deriving DecidableEq, Repr

/-- The payload of a broadcast. -/
inductive Payload where
  | user (username : JSString)
  | message (username : JSString) (message : JSString) (timestamp : JSString)
  deriving DecidableEq, Repr

/-- What a handler does to the transport, in program order. -/
inductive Effect where
  /-- The call `socket.leave(room)`. -/
  | leave (room : JSString)
  /-- The call `socket.join(room)`. -/
  | join (room : JSString)
  /-- The call `io.to(room).emit(event, payload)`: every socket of the room. -/
  | ioEmit (room : JSString) (event : EventName) (payload : Payload)
  /-- The call `socket.to(room).emit(event, payload)`: every socket of the room
  but the calling one. -/
  | socketEmit (room : JSString) (event : EventName) (payload : Payload)
  deriving DecidableEq, Repr

/-- The object passed to the callback of a request. -/
inductive Response where
  | failure (error : String)
  | login (username : JSString) (rooms : List JSString)
  | joinRoom (room : JSString) (users : List JSString) (rooms : List JSString)
  | createRoom (room : JSString) (rooms : List JSString)
  | sendMessage
  | getRooms (rooms : List JSString)
  deriving DecidableEq, Repr

/-- Whether the answer carries `success: false`. -/
def Response.isFailure : Response → Bool
  | .failure _ => true
  | _ => false

/-- The room list carried by an answer, when it carries one. -/
def Response.roomList : Response → Option (List JSString)
  | .login _ rooms => some rooms
  | .joinRoom _ _ rooms => some rooms
  | .createRoom _ rooms => some rooms
  | .getRooms rooms => some rooms
  | _ => none

/-- Error text of `login` for a bad name. The error texts are those of the source. -/
def errInvalidName : String :=
  "Username must be 2-20 characters and contain only letters, numbers, and underscores"

/-- Error text: the name is in use. -/
def errNameTaken : String := "Username is already taken"

/-- Error text: no session. -/
def errNotLoggedIn : String := "Please login first"

/-- Error text of `joinRoom` for a bad room name. -/
def errJoinRoomName : String := "Room name must be 1-30 characters"

/-- Error text of `createRoom` for a bad room name. -/
def errCreateRoomName : String :=
  "Room name must be 2-20 characters and contain only letters, numbers, and underscores"

/-- Error text: the room is already in the set. -/
def errRoomExists : String := "Room already exists"

/-- Error text of `sendMessage` without session or without room. -/
def errNoRoom : String := "You must be in a room to send messages"

/-- Error text: empty message. -/
def errEmptyMessage : String := "Message cannot be empty"

/-- An event received on a socket, with the fields read from its `data`
argument. The time-stamp `new Date().toISOString()` of `sendMessage` is an
input of the model. -/
inductive Request where
  | login (username : JSValue)
  | joinRoom (room : JSValue)
  | createRoom (room : JSValue)
  | sendMessage (message : JSValue) (now : JSString)
  | getRooms
  | disconnect
  deriving DecidableEq, Repr

/-- The result of one handler: new storage, answer given to the callback (none
for `disconnect`), transport effects. -/
structure Outcome where
  state : State
  response : Option Response
  effects : List Effect
  deriving DecidableEq, Repr

/-- A handler that answers with an error and changes nothing. -/
def fail (s : State) (error : String) : Outcome :=
  { state := s, response := some (.failure error), effects := [] }

/-! ## Handlers -/

/-- Source: `socket.on('login', ...)`. -/
def handleLogin (s : State) (c : ConnId) (data : JSValue) : Outcome :=
  let username := sanitizeInput data
  if !isValidUsername (.str username) then fail s errInvalidName
  else if isUsernameTaken s.users username then fail s errNameTaken
  else
    { state := { s with users := mapSet s.users c { username := username, room := none } }
      response := some (.login username s.rooms)
      effects := [] }

/-- The block "Leave previous room if any" of `joinRoom`: the membership map
and the effects after it. -/
def leavePrevious (roomUsers : List (JSString × List JSString)) (user : User) :
    List (JSString × List JSString) × List Effect :=
  match user.room with
  | none => (roomUsers, [])
  | some prev =>
    if prev.isEmpty then (roomUsers, [])
    else
      match mapGet roomUsers prev with
      | none => (roomUsers, [.leave prev])
      | some prevRoomUsers =>
        let members := setDelete prevRoomUsers user.username
        let roomUsers1 := mapSet roomUsers prev members
        let roomUsers2 := if members.length = 0 then mapDelete roomUsers1 prev else roomUsers1
        (roomUsers2, [.leave prev, .ioEmit prev .userLeft (.user user.username)])

/-- Source: `socket.on('joinRoom', ...)`. -/
def handleJoinRoom (s : State) (c : ConnId) (data : JSValue) : Outcome :=
  match mapGet s.users c with
  | none => fail s errNotLoggedIn
  | some user =>
    let roomName := sanitizeInput data
    if roomName.isEmpty || decide (roomName.length < 1) || decide (roomName.length > 30) then
      fail s errJoinRoomName
    else
      let left := leavePrevious s.roomUsers user
      let rooms := if setHas s.rooms roomName then s.rooms else setAdd s.rooms roomName
      let users := mapSet s.users c { user with room := some roomName }
      let roomUsers1 :=
        if mapHas left.1 roomName then left.1 else mapSet left.1 roomName []
      let members := setAdd ((mapGet roomUsers1 roomName).getD []) user.username
      let roomUsers2 := mapSet roomUsers1 roomName members
      { state := { users := users, rooms := rooms, roomUsers := roomUsers2 }
        response := some (.joinRoom roomName members rooms)
        effects := left.2 ++
          [.join roomName, .socketEmit roomName .userJoined (.user user.username)] }

/-- Source: `socket.on('createRoom', ...)`. -/
def handleCreateRoom (s : State) (c : ConnId) (data : JSValue) : Outcome :=
  match mapGet s.users c with
  | none => fail s errNotLoggedIn
  | some _ =>
    let roomName := sanitizeInput data
    if !isValidUsername (.str roomName) then fail s errCreateRoomName
    else if setHas s.rooms roomName then fail s errRoomExists
    else
      let rooms := setAdd s.rooms roomName
      { state := { s with rooms := rooms }
        response := some (.createRoom roomName rooms)
        effects := [] }

/-- Source: `socket.on('sendMessage', ...)`. -/
def handleSendMessage (s : State) (c : ConnId) (data : JSValue) (now : JSString) : Outcome :=
  match mapGet s.users c with
  | none => fail s errNoRoom
  | some user =>
    match user.room with
    | none => fail s errNoRoom
    | some room =>
      if room.isEmpty then fail s errNoRoom
      else
        let message := sanitizeInput data
        if message.isEmpty || decide (message.length = 0) then fail s errEmptyMessage
        else
          { state := s
            response := some .sendMessage
            effects := [.ioEmit room .newMessage (.message user.username message now)] }

/-- Source: `socket.on('getRooms', ...)`. -/
def handleGetRooms (s : State) : Outcome :=
  { state := s, response := some (.getRooms s.rooms), effects := [] }

/-- The inner block of the `disconnect` handler, run when the connection has a
user: the membership map and the effects after it. -/
def leaveOnDisconnect (roomUsers : List (JSString × List JSString)) (user : User) :
    List (JSString × List JSString) × List Effect :=
  match user.room with
  | none => (roomUsers, [])
  | some room =>
    if room.isEmpty then (roomUsers, [])
    else
      match mapGet roomUsers room with
      | none => (roomUsers, [])
      | some roomUsersSet =>
        let members := setDelete roomUsersSet user.username
        let roomUsers1 := mapSet roomUsers room members
        let roomUsers2 := if members.length = 0 then mapDelete roomUsers1 room else roomUsers1
        (roomUsers2, [.socketEmit room .userLeft (.user user.username)])

/-- Source: `socket.on('disconnect', ...)`. -/
def handleDisconnect (s : State) (c : ConnId) : Outcome :=
  match mapGet s.users c with
  | none => { state := s, response := none, effects := [] }
  | some user =>
    let left := leaveOnDisconnect s.roomUsers user
    { state := { s with users := mapDelete s.users c, roomUsers := left.1 }
      response := none
      effects := left.2 }

/-- The dispatch of one event received on connection `c`. -/
def handle (s : State) (c : ConnId) (req : Request) : Outcome :=
  match req with
  | .login username => handleLogin s c username
  | .joinRoom room => handleJoinRoom s c room
  | .createRoom room => handleCreateRoom s c room
  | .sendMessage message now => handleSendMessage s c message now
  | .getRooms => handleGetRooms s
  | .disconnect => handleDisconnect s c

/-- The storage after a sequence of events, each handled to completion before
the next one. -/
def run (s : State) : List (ConnId × Request) → State
  | [] => s
  | (c, req) :: rest => run (handle s c req).state rest

/-- The states the server can be in: those reached from `initial` by some
sequence of events on some connections. A connection may send any event at any
moment, before its login and after its disconnect as well, so every state of a
real run is among them. -/
def Reachable (s : State) : Prop :=
  ∃ trace : List (ConnId × Request), run initial trace = s

/-- The session of connection `c`, if it has one. -/
def session (s : State) (c : ConnId) : Option User :=
  mapGet s.users c

/-- The membership set of room `r`: empty when the map has no entry. -/
def membersOf (s : State) (r : JSString) : List JSString :=
  (mapGet s.roomUsers r).getD []

/-! ## Invariant -/

/-- Name `n` is in the membership set that the map holds for room `r`. -/
def InRoom (roomUsers : List (JSString × List JSString)) (r n : JSString) : Prop :=
  ∃ members, mapGet roomUsers r = some members ∧ n ∈ members

/-- The facts that hold of the storage in every reachable state. -/
structure Inv (s : State) : Prop where
  /-- A connection has at most one entry of `users`. -/
  keys : (s.users.map Prod.fst).Nodup
  /-- Two entries with the same lower-cased name are on the same connection. -/
  names : ∀ e1 ∈ s.users, ∀ e2 ∈ s.users,
    toLowerCase e1.2.username = toLowerCase e2.2.username → e1.1 = e2.1
  /-- The default room is known. -/
  hasGeneral : general ∈ s.rooms
  /-- The room of a user is a non-empty known name, and the user is among its members. -/
  member : ∀ c u r, mapGet s.users c = some u → u.room = some r →
    r ≠ [] ∧ r ∈ s.rooms ∧ InRoom s.roomUsers r u.username

/-! ## Concrete inputs -/

/-- The string `alice`. -/
def alice : JSString := [97, 108, 105, 99, 101]

/-- The string `Alice`. -/
def aliceCapital : JSString := [65, 108, 105, 99, 101]

/-- The string `bob`. -/
def bob : JSString := [98, 111, 98]

/-- The string `lobby`. -/
def lobby : JSString := [108, 111, 98, 98, 121]

/-- The string `hi`. -/
def hi : JSString := [104, 105]

/-- The string `a b`, with a space in the middle. -/
def aSpaceB : JSString := [97, 32, 98]

/-- The string `Team1`. -/
def team1 : JSString := [84, 101, 97, 109, 49]

/-- The storage after `alice` logged in on connection 1. -/
def aliceLoggedIn : State :=
  run initial [(1, .login (.str alice))]

/-- The storage after `alice` logged in on connection 1 and joined `general`. -/
def aliceInGeneral : State :=
  run initial [(1, .login (.str alice)), (1, .joinRoom (.str general))]

/-- A message of 201 code units: 199 times `a`, a space, then `b`. -/
def longMessage : JSString := List.replicate 199 97 ++ [32, 98]

/-- The first 200 code units of `longMessage`: 199 times `a`, then a space. -/
def longMessageCut : JSString := List.replicate 199 97 ++ [32]

/-- The string `x y`, a room name with a space in the middle. -/
def roomWithSpace : JSString := [120, 32, 121]

/-- The storage after `alice` (connection 1) and `bob` (connection 2) logged in
and both joined `general`. -/
def aliceAndBobInGeneral : State :=
  run initial [(1, .login (.str alice)), (2, .login (.str bob)),
    (1, .joinRoom (.str general)), (2, .joinRoom (.str general))]

/-- A name of 201 code units: `ab`, 198 spaces, then `x`. -/
def paddedName : JSString := [97, 98] ++ List.replicate 198 32 ++ [120]

/-- The first 200 code units of `paddedName`: `ab`, then 198 spaces. -/
def paddedNameCut : JSString := [97, 98] ++ List.replicate 198 32

/-- The storage after, on connection 1, `alice` logged in, joined `general`,
and a second login as `bob` was received. -/
def loggedInAgain : State :=
  run initial [(1, .login (.str alice)), (1, .joinRoom (.str general)), (1, .login (.str bob))]

/-- Every `login` of the trace arrives on a connection that has no session at
that moment, which is how the shipped client behaves: it logs in once per
connection. -/
def loginsAreFirst (s : State) : List (ConnId × Request) → Bool
  | [] => true
  | (c, .login data) :: rest =>
    (session s c).isNone && loginsAreFirst (handle s c (.login data)).state rest
  | (c, req) :: rest => loginsAreFirst (handle s c req).state rest

/-- The reverse of `Inv.member`: every member of a room is the name of a
session whose current room it is. -/
def Mirrors (s : State) : Prop :=
  ∀ r n, InRoom s.roomUsers r n →
    ∃ c u, mapGet s.users c = some u ∧ u.username = n ∧ u.room = some r

/-! ## Facts about trimming and sanitizing -/

theorem isWhiteSpace_of_isWordChar {c : Nat} (h : isWordChar c = true) :
    isWhiteSpace c = false := by
  simp only [isWordChar, Bool.or_eq_true, Bool.and_eq_true, decide_eq_true_eq, beq_iff_eq] at h
  simp only [isWhiteSpace, Bool.or_eq_false_iff, Bool.and_eq_false_iff, decide_eq_false_iff_not,
    beq_eq_false_iff_ne, ne_eq]
  omega

theorem trim_isPrefix_dropWhile (s : JSString) :
    trim s <+: s.dropWhile isWhiteSpace :=
  List.rdropWhile_prefix isWhiteSpace (s.dropWhile isWhiteSpace)

theorem trim_length_le (s : JSString) : (trim s).length ≤ s.length :=
  le_trans (trim_isPrefix_dropWhile s).length_le (List.dropWhile_suffix isWhiteSpace).length_le

theorem trim_noLeading (s : JSString) : noLeadingWhiteSpace (trim s) := by
  intro c hc
  obtain ⟨rest, hrest⟩ := trim_isPrefix_dropWhile s
  have hd := List.head?_dropWhile_not isWhiteSpace s
  cases ht : trim s with
  | nil => simp [ht] at hc
  | cons a t =>
    rw [ht] at hc hrest
    simp only [List.head?_cons, Option.some.injEq] at hc
    rw [← hrest] at hd
    simpa [hc] using hd

theorem trim_noTrailing (s : JSString) : noTrailingWhiteSpace (trim s) := by
  intro c hc
  have hne : trim s ≠ [] := by
    intro h
    rw [h] at hc
    simp at hc
  have hl : (trim s).getLast hne = c := by
    rw [List.getLast?_eq_getLast _ hne] at hc
    exact Option.some.inj hc
  have := List.rdropWhile_last_not isWhiteSpace (s.dropWhile isWhiteSpace) hne
  have h2 : ¬ isWhiteSpace ((trim s).getLast hne) = true := this
  rw [hl] at h2
  simpa using h2

theorem trim_eq_self {s : JSString} (h1 : noLeadingWhiteSpace s) (h2 : noTrailingWhiteSpace s) :
    trim s = s := by
  have hd : s.dropWhile isWhiteSpace = s := by
    cases s with
    | nil => rfl
    | cons a t =>
      have := h1 a rfl
      simp [List.dropWhile_cons, this]
  unfold trim
  rw [hd]
  show List.rdropWhile isWhiteSpace s = s
  rw [List.rdropWhile_eq_self_iff]
  intro hl
  have := h2 (s.getLast hl) (List.getLast?_eq_getLast _ hl)
  simp [this]

theorem trim_eq_self_of_wordChars {s : JSString} (h : ∀ c ∈ s, isWordChar c = true) :
    trim s = s := by
  apply trim_eq_self
  · intro c hc
    exact isWhiteSpace_of_isWordChar (h c (List.mem_of_mem_head? hc))
  · intro c hc
    exact isWhiteSpace_of_isWordChar (h c (List.mem_of_mem_getLast? hc))

theorem sanitizeInput_length_le (v : JSValue) : (sanitizeInput v).length ≤ 200 := by
  cases v with
  | other => simp [sanitizeInput]
  | str s => simp [sanitizeInput, slice0, List.length_take]

theorem sanitizeInput_eq_trim {s : JSString} (h : (trim s).length ≤ 200) :
    sanitizeInput (.str s) = trim s := by
  simp [sanitizeInput, slice0, List.take_of_length_le h]

theorem sanitizeInput_noLeading (v : JSValue) : noLeadingWhiteSpace (sanitizeInput v) := by
  cases v with
  | other => intro c hc; simp [sanitizeInput] at hc
  | str s =>
    intro c hc
    apply trim_noLeading s c
    cases ht : trim s with
    | nil => simp [sanitizeInput, slice0, ht] at hc
    | cons a t =>
      simp only [sanitizeInput, slice0, ht] at hc
      simpa using hc

theorem sanitizeInput_eq_nil_iff (s : JSString) :
    sanitizeInput (.str s) = [] ↔ trim s = [] := by
  simp [sanitizeInput, slice0, List.take_eq_nil_iff]

theorem sanitizeInput_of_pattern {s : JSString} (h : matchesNamePattern s) :
    sanitizeInput (.str s) = s := by
  have ht : trim s = s := trim_eq_self_of_wordChars h.2.2
  rw [sanitizeInput_eq_trim (by rw [ht]; have := h.2.1; omega), ht]

theorem isValidUsername_of_pattern {s : JSString} (h : matchesNamePattern s) :
    isValidUsername (.str s) = true := by
  have hs := sanitizeInput_of_pattern h
  obtain ⟨h1, h2, h3⟩ := h
  have hne : s ≠ [] := by
    intro h0
    rw [h0] at h1
    simp at h1
  simp only [isValidUsername, hs, wordRegexTest]
  simp [hne, h1, h2, List.all_eq_true]
  exact h3

/-- What the check of `isValidUsername` really establishes: the pattern holds
of the argument sanitized once more. -/
theorem isValidUsername_iff (s : JSString) :
    isValidUsername (.str s) = true ↔ s ≠ [] ∧ matchesNamePattern (sanitizeInput (.str s)) := by
  simp only [isValidUsername, matchesNamePattern, wordRegexTest]
  by_cases hs : s = []
  · simp [hs]
  · simp only [List.isEmpty_iff, hs, if_false, Bool.and_eq_true, decide_eq_true_eq,
      Bool.not_eq_true', List.all_eq_true, ne_eq, not_false_eq_true, true_and]
    constructor
    · rintro ⟨⟨h1, h2⟩, _, h4⟩
      exact ⟨h1, h2, h4⟩
    · rintro ⟨h1, h2, h3⟩
      refine ⟨⟨h1, h2⟩, ?_, h3⟩
      cases hh : sanitizeInput (.str s) with
      | nil => rw [hh] at h1; simp at h1
      | cons a t => rfl

/-! ## Facts about the containers -/

section ContainerFacts

variable {κ α : Type} [DecidableEq κ]

theorem mapGet_mapSet (m : List (κ × α)) (k k' : κ) (v : α) :
    mapGet (mapSet m k v) k' = if k = k' then some v else mapGet m k' := by
  induction m with
  | nil => simp [mapSet, mapGet]
  | cons e rest ih =>
    obtain ⟨k0, v0⟩ := e
    by_cases h : k0 = k
    · subst h
      by_cases h' : k0 = k' <;> simp [mapSet, mapGet, h']
    · by_cases h' : k = k'
      · subst h'
        simp [mapSet, mapGet, h, ih]
      · simp [mapSet, mapGet, h, ih, h']

theorem mapDelete_cons (k0 : κ) (v0 : α) (rest : List (κ × α)) (k : κ) :
    mapDelete ((k0, v0) :: rest) k =
      if k0 = k then mapDelete rest k else (k0, v0) :: mapDelete rest k := by
  by_cases h : k0 = k <;> simp [mapDelete, List.filter_cons, h]

theorem mapGet_mapDelete (m : List (κ × α)) (k k' : κ) :
    mapGet (mapDelete m k) k' = if k = k' then none else mapGet m k' := by
  induction m with
  | nil => simp [mapDelete, mapGet]
  | cons e rest ih =>
    obtain ⟨k0, v0⟩ := e
    rw [mapDelete_cons]
    by_cases h : k0 = k
    · subst h
      simp only [if_true, ih, mapGet]
      by_cases h' : k0 = k' <;> simp [h']
    · simp only [h, if_false, mapGet, ih]
      by_cases h' : k = k'
      · subst h'
        simp [h]
      · simp [h']

theorem mem_of_mapGet {m : List (κ × α)} {k : κ} {v : α} (h : mapGet m k = some v) :
    (k, v) ∈ m := by
  induction m with
  | nil => simp [mapGet] at h
  | cons e rest ih =>
    obtain ⟨k0, v0⟩ := e
    by_cases hk : k0 = k
    · subst hk
      simp [mapGet] at h
      simp [h]
    · simp [mapGet, hk] at h
      exact List.mem_cons_of_mem _ (ih h)

theorem mapGet_of_mem {m : List (κ × α)} (hn : (m.map Prod.fst).Nodup) {k : κ} {v : α}
    (h : (k, v) ∈ m) : mapGet m k = some v := by
  induction m with
  | nil => simp at h
  | cons e rest ih =>
    obtain ⟨k0, v0⟩ := e
    simp only [List.map_cons, List.nodup_cons] at hn
    rcases List.mem_cons.mp h with h1 | h1
    · cases h1
      simp [mapGet]
    · have hk : k0 ≠ k := by
        intro hk
        subst hk
        exact hn.1 (List.mem_map_of_mem Prod.fst h1)
      simp [mapGet, hk, ih hn.2 h1]

theorem mem_mapSet {m : List (κ × α)} {k : κ} {v : α} {e : κ × α} (h : e ∈ mapSet m k v) :
    e = (k, v) ∨ e ∈ m := by
  induction m with
  | nil => simpa [mapSet] using h
  | cons e0 rest ih =>
    obtain ⟨k0, v0⟩ := e0
    by_cases hk : k0 = k
    · simp only [mapSet, hk, if_true, List.mem_cons] at h
      rcases h with h | h
      · exact Or.inl h
      · exact Or.inr (List.mem_cons_of_mem _ h)
    · simp only [mapSet, hk, if_false, List.mem_cons] at h
      rcases h with h | h
      · exact Or.inr (by simp [h])
      · rcases ih h with h | h
        · exact Or.inl h
        · exact Or.inr (List.mem_cons_of_mem _ h)

theorem nodup_keys_mapSet {m : List (κ × α)} (hn : (m.map Prod.fst).Nodup) (k : κ) (v : α) :
    ((mapSet m k v).map Prod.fst).Nodup := by
  induction m with
  | nil => simp [mapSet]
  | cons e0 rest ih =>
    obtain ⟨k0, v0⟩ := e0
    simp only [List.map_cons, List.nodup_cons] at hn
    by_cases hk : k0 = k
    · subst hk
      simpa [mapSet] using hn
    · simp only [mapSet, hk, if_false, List.map_cons, List.nodup_cons]
      refine ⟨?_, ih hn.2⟩
      intro hmem
      obtain ⟨e, he, hfst⟩ := List.mem_map.mp hmem
      rcases mem_mapSet he with h | h
      · apply hk
        rw [← hfst, h]
      · apply hn.1
        rw [← hfst]
        exact List.mem_map_of_mem Prod.fst h

theorem mem_mapDelete {m : List (κ × α)} {k : κ} {e : κ × α} :
    e ∈ mapDelete m k ↔ e ∈ m ∧ e.1 ≠ k := by
  simp [mapDelete, List.mem_filter]

theorem nodup_keys_mapDelete {m : List (κ × α)} (hn : (m.map Prod.fst).Nodup) (k : κ) :
    ((mapDelete m k).map Prod.fst).Nodup :=
  hn.sublist ((List.filter_sublist m).map Prod.fst)

theorem mem_setAdd {s : List κ} {x y : κ} : y ∈ setAdd s x ↔ y ∈ s ∨ y = x := by
  unfold setAdd
  by_cases h : x ∈ s
  · simp only [h, if_true]
    constructor
    · exact Or.inl
    · rintro (h1 | h1)
      · exact h1
      · rw [h1]; exact h
  · simp [h]

theorem mem_setDelete {s : List κ} {x y : κ} : y ∈ setDelete s x ↔ y ∈ s ∧ y ≠ x := by
  simp [setDelete, List.mem_filter]

theorem subset_setAdd (s : List κ) (x : κ) : s ⊆ setAdd s x :=
  fun _ hy => mem_setAdd.mpr (Or.inl hy)

end ContainerFacts

/-! ## Leaving a room -/

theorem leaveOnDisconnect_fst (ru : List (JSString × List JSString)) (u : User) :
    (leaveOnDisconnect ru u).1 = (leavePrevious ru u).1 := by
  unfold leaveOnDisconnect leavePrevious
  cases u.room with
  | none => rfl
  | some r =>
    by_cases hr : r.isEmpty = true
    · simp [hr]
    · simp only [hr]
      cases mapGet ru r <;> rfl

theorem leavePrevious_get_other (ru : List (JSString × List JSString)) (u : User)
    (r : JSString) (h : u.room ≠ some r) :
    mapGet (leavePrevious ru u).1 r = mapGet ru r := by
  unfold leavePrevious
  cases hroom : u.room with
  | none => rfl
  | some p =>
    have hpr : p ≠ r := by
      intro h'
      apply h
      rw [hroom, h']
    by_cases hp : p.isEmpty = true
    · simp [hp]
    · simp only [hp]
      cases hg : mapGet ru p with
      | none => rfl
      | some set =>
        by_cases hl : (setDelete set u.username).length = 0
        · simp [hl, mapGet_mapDelete, mapGet_mapSet, hpr]
        · simp [hl, mapGet_mapSet, hpr]

theorem leavePrevious_get_prev (ru : List (JSString × List JSString)) (u : User)
    (r : JSString) (h : u.room = some r) (hr : r ≠ []) :
    mapGet (leavePrevious ru u).1 r =
      (mapGet ru r).bind (fun members =>
        if setDelete members u.username = [] then none
        else some (setDelete members u.username)) := by
  unfold leavePrevious
  have hp : r.isEmpty = false := by
    cases r with
    | nil => exact absurd rfl hr
    | cons a t => rfl
  simp only [h, hp]
  cases hg : mapGet ru r with
  | none => simp [hg]
  | some set =>
    by_cases hl : setDelete set u.username = []
    · simp [hl, mapGet_mapDelete]
    · have hl' : (setDelete set u.username).length ≠ 0 := by
        simpa [List.length_eq_zero] using hl
      simp [hl, hl', mapGet_mapSet]

theorem leavePrevious_keeps {ru : List (JSString × List JSString)} {u : User}
    {r n : JSString} (hn : n ≠ u.username) (h : InRoom ru r n) :
    InRoom (leavePrevious ru u).1 r n := by
  obtain ⟨set, hset, hmem⟩ := h
  by_cases hroom : u.room = some r
  · by_cases hr : r = []
    · subst hr
      have : (leavePrevious ru u).1 = ru := by
        unfold leavePrevious
        simp [hroom]
      rw [this]
      exact ⟨set, hset, hmem⟩
    · rw [InRoom, leavePrevious_get_prev ru u r hroom hr, hset]
      have hin : n ∈ setDelete set u.username := mem_setDelete.mpr ⟨hmem, hn⟩
      have hne : setDelete set u.username ≠ [] := List.ne_nil_of_mem hin
      exact ⟨setDelete set u.username, by simp [hne], hin⟩
  · rw [InRoom, leavePrevious_get_other ru u r hroom]
    exact ⟨set, hset, hmem⟩

theorem leavePrevious_removes (ru : List (JSString × List JSString)) (u : User)
    (r : JSString) (h : u.room = some r) (hr : r ≠ []) :
    ¬ InRoom (leavePrevious ru u).1 r u.username := by
  rintro ⟨set, hset, hmem⟩
  rw [leavePrevious_get_prev ru u r h hr] at hset
  cases hg : mapGet ru r with
  | none => simp [hg] at hset
  | some old =>
    simp only [hg, Option.some_bind] at hset
    by_cases hl : setDelete old u.username = []
    · simp [hl] at hset
    · simp only [hl, if_false, Option.some.injEq] at hset
      rw [← hset] at hmem
      exact (mem_setDelete.mp hmem).2 rfl

/-! ## The handlers in closed form -/

theorem mapSet_mapSet {κ α : Type} [DecidableEq κ] (m : List (κ × α)) (k : κ) (v w : α) :
    mapSet (mapSet m k v) k w = mapSet m k w := by
  induction m with
  | nil => simp [mapSet]
  | cons e rest ih =>
    obtain ⟨k0, v0⟩ := e
    by_cases h : k0 = k
    · simp [mapSet, h]
    · simp [mapSet, h, ih]

theorem setAdd_of_mem {κ : Type} [DecidableEq κ] {s : List κ} {x : κ} (h : x ∈ s) :
    setAdd s x = s := by
  simp [setAdd, h]

/-- The members answered by a successful `joinRoom`. -/
theorem handleJoinRoom_ok {s : State} {c : ConnId} {data : JSValue} {user : User}
    (hu : mapGet s.users c = some user)
    (h1 : sanitizeInput data ≠ []) (h2 : (sanitizeInput data).length ≤ 30) :
    handleJoinRoom s c data =
      { state :=
          { users := mapSet s.users c { user with room := some (sanitizeInput data) }
            rooms := setAdd s.rooms (sanitizeInput data)
            roomUsers := mapSet (leavePrevious s.roomUsers user).1 (sanitizeInput data)
              (setAdd ((mapGet (leavePrevious s.roomUsers user).1 (sanitizeInput data)).getD [])
                user.username) }
        response := some (.joinRoom (sanitizeInput data)
          (setAdd ((mapGet (leavePrevious s.roomUsers user).1 (sanitizeInput data)).getD [])
            user.username)
          (setAdd s.rooms (sanitizeInput data)))
        effects := (leavePrevious s.roomUsers user).2 ++
          [.join (sanitizeInput data),
           .socketEmit (sanitizeInput data) .userJoined (.user user.username)] } := by
  have hrooms : (if setHas s.rooms (sanitizeInput data) = true then s.rooms
      else setAdd s.rooms (sanitizeInput data)) = setAdd s.rooms (sanitizeInput data) := by
    by_cases hm : sanitizeInput data ∈ s.rooms
    · simp [setHas, hm, setAdd_of_mem hm]
    · simp [setHas, hm]
  have hlen : ¬ (sanitizeInput data).length < 1 := by
    have : 0 < (sanitizeInput data).length := List.length_pos.mpr h1
    omega
  have hgt : ¬ (sanitizeInput data).length > 30 := by omega
  have hemp : (sanitizeInput data).isEmpty = false := by
    cases hh : sanitizeInput data with
    | nil => exact absurd hh h1
    | cons a t => rfl
  unfold handleJoinRoom
  simp only [hu, hemp, hlen, hgt, decide_False, Bool.or_self, Bool.false_eq_true, if_false, hrooms]
  cases hg : mapGet (leavePrevious s.roomUsers user).1 (sanitizeInput data) with
  | none =>
    simp [mapHas, hg, mapGet_mapSet, mapSet_mapSet]
  | some set =>
    simp [mapHas, hg]

theorem handleJoinRoom_bad {s : State} {c : ConnId} {data : JSValue} {user : User}
    (hu : mapGet s.users c = some user)
    (h : sanitizeInput data = [] ∨ 30 < (sanitizeInput data).length) :
    handleJoinRoom s c data = fail s errJoinRoomName := by
  unfold handleJoinRoom
  simp only [hu]
  rcases h with h | h
  · simp [h]
  · simp [h]

theorem isUsernameTaken_eq_false {users : List (ConnId × User)} {name : JSString}
    (h : isUsernameTaken users name = false) :
    ∀ e ∈ users, toLowerCase e.2.username ≠ toLowerCase name := by
  intro e he
  unfold isUsernameTaken at h
  rw [List.any_eq_false] at h
  simpa using h e he

theorem isUsernameTaken_eq_true {users : List (ConnId × User)} {name : JSString}
    (h : isUsernameTaken users name = true) :
    ∃ e ∈ users, toLowerCase e.2.username = toLowerCase name := by
  unfold isUsernameTaken at h
  rw [List.any_eq_true] at h
  obtain ⟨e, he, h⟩ := h
  exact ⟨e, he, by simpa using h⟩

/-- The three ways `login` can end. -/
theorem handleLogin_cases (s : State) (c : ConnId) (data : JSValue) :
    (isValidUsername (.str (sanitizeInput data)) = false ∧
      handleLogin s c data = fail s errInvalidName) ∨
    (isValidUsername (.str (sanitizeInput data)) = true ∧
      isUsernameTaken s.users (sanitizeInput data) = true ∧
      handleLogin s c data = fail s errNameTaken) ∨
    (isValidUsername (.str (sanitizeInput data)) = true ∧
      isUsernameTaken s.users (sanitizeInput data) = false ∧
      handleLogin s c data =
        { state :=
            { s with users := mapSet s.users c { username := sanitizeInput data, room := none } }
          response := some (.login (sanitizeInput data) s.rooms)
          effects := [] }) := by
  unfold handleLogin
  cases hv : isValidUsername (.str (sanitizeInput data)) with
  | false => simp [hv]
  | true =>
    cases ht : isUsernameTaken s.users (sanitizeInput data) with
    | false => simp [hv, ht]
    | true => simp [hv, ht]

/-- The four ways `createRoom` can end. -/
theorem handleCreateRoom_cases (s : State) (c : ConnId) (data : JSValue) :
    (mapGet s.users c = none ∧ handleCreateRoom s c data = fail s errNotLoggedIn) ∨
    ((mapGet s.users c).isSome = true ∧
      isValidUsername (.str (sanitizeInput data)) = false ∧
      handleCreateRoom s c data = fail s errCreateRoomName) ∨
    ((mapGet s.users c).isSome = true ∧
      isValidUsername (.str (sanitizeInput data)) = true ∧
      sanitizeInput data ∈ s.rooms ∧
      handleCreateRoom s c data = fail s errRoomExists) ∨
    ((mapGet s.users c).isSome = true ∧
      isValidUsername (.str (sanitizeInput data)) = true ∧
      sanitizeInput data ∉ s.rooms ∧
      handleCreateRoom s c data =
        { state := { s with rooms := s.rooms ++ [sanitizeInput data] }
          response := some (.createRoom (sanitizeInput data) (s.rooms ++ [sanitizeInput data]))
          effects := [] }) := by
  unfold handleCreateRoom
  cases hu : mapGet s.users c with
  | none => simp
  | some u =>
    cases hv : isValidUsername (.str (sanitizeInput data)) with
    | false => simp [hv]
    | true =>
      by_cases hm : sanitizeInput data ∈ s.rooms
      · simp [setHas, hm, hv]
      · simp [setHas, hm, setAdd, hv]

/-! ## The invariant holds in every reachable state -/

theorem inv_initial : Inv initial := by
  refine ⟨by simp [initial], ?_, by simp [initial], ?_⟩
  · intro e1 h1
    simp [initial] at h1
  · intro c u r h
    simp [initial, mapGet] at h

theorem inv_login {s : State} (h : Inv s) (c : ConnId) (data : JSValue) :
    Inv (handleLogin s c data).state := by
  rcases handleLogin_cases s c data with ⟨_, he⟩ | ⟨_, _, he⟩ | ⟨_, ht, he⟩
  · rw [he]; exact h
  · rw [he]; exact h
  · rw [he]
    have hnt := isUsernameTaken_eq_false ht
    refine ⟨nodup_keys_mapSet h.keys _ _, ?_, h.hasGeneral, ?_⟩
    · intro e1 h1 e2 h2 heq
      rcases mem_mapSet h1 with r1 | r1 <;> rcases mem_mapSet h2 with r2 | r2
      · rw [r1, r2]
      · exfalso
        rw [r1] at heq
        exact hnt e2 r2 heq.symm
      · exfalso
        rw [r2] at heq
        exact hnt e1 r1 heq
      · exact h.names e1 r1 e2 r2 heq
    · intro c' u r hget hroom
      simp only [mapGet_mapSet] at hget
      by_cases hc : c = c'
      · simp only [hc, if_true, Option.some.injEq] at hget
        rw [← hget] at hroom
        simp at hroom
      · simp only [hc, if_false] at hget
        exact h.member c' u r hget hroom

theorem names_differ {s : State} (h : Inv s) {c c' : ConnId} {u u' : User}
    (hu : mapGet s.users c = some u) (hu' : mapGet s.users c' = some u') (hc : c ≠ c') :
    toLowerCase u'.username ≠ toLowerCase u.username := by
  intro heq
  exact hc (h.names (c', u') (mem_of_mapGet hu') (c, u) (mem_of_mapGet hu) heq).symm

theorem inv_joinRoom {s : State} (h : Inv s) (c : ConnId) (data : JSValue) :
    Inv (handleJoinRoom s c data).state := by
  cases hu : mapGet s.users c with
  | none =>
    have : handleJoinRoom s c data = fail s errNotLoggedIn := by
      simp [handleJoinRoom, hu]
    rw [this]
    exact h
  | some user =>
    by_cases hbad : sanitizeInput data = [] ∨ 30 < (sanitizeInput data).length
    · rw [handleJoinRoom_bad hu hbad]
      exact h
    · have h1 : sanitizeInput data ≠ [] := fun h0 => hbad (Or.inl h0)
      have h2 : (sanitizeInput data).length ≤ 30 := by
        by_contra h0
        exact hbad (Or.inr (by omega))
      rw [handleJoinRoom_ok hu h1 h2]
      have huser : (c, user) ∈ s.users := mem_of_mapGet hu
      refine ⟨nodup_keys_mapSet h.keys _ _, ?_, subset_setAdd _ _ h.hasGeneral, ?_⟩
      · have key : ∀ e ∈ mapSet s.users c { user with room := some (sanitizeInput data) },
            ∃ e' ∈ s.users, e'.1 = e.1 ∧ e'.2.username = e.2.username := by
          intro e he
          rcases mem_mapSet he with r | r
          · exact ⟨(c, user), huser, by simp [r], by simp [r]⟩
          · exact ⟨e, r, rfl, rfl⟩
        intro e1 m1 e2 m2 heq
        obtain ⟨a1, ha1, hk1, hn1⟩ := key e1 m1
        obtain ⟨a2, ha2, hk2, hn2⟩ := key e2 m2
        rw [← hk1, ← hk2]
        apply h.names a1 ha1 a2 ha2
        rw [hn1, hn2]
        exact heq
      · intro c' u r hget hroom
        simp only [mapGet_mapSet] at hget
        by_cases hc : c = c'
        · simp only [hc, if_true, Option.some.injEq] at hget
          rw [← hget] at hroom ⊢
          simp only [Option.some.injEq] at hroom
          rw [← hroom]
          exact ⟨h1, mem_setAdd.mpr (Or.inr rfl), _,
            (mapGet_mapSet _ _ _ _).trans (if_pos rfl), mem_setAdd.mpr (Or.inr rfl)⟩
        · simp only [hc, if_false] at hget
          obtain ⟨hr, hrm, hin⟩ := h.member c' u r hget hroom
          have hne : u.username ≠ user.username := by
            intro heq
            exact names_differ h hu hget hc (by rw [heq])
          obtain ⟨set, hset, hmem⟩ := @leavePrevious_keeps s.roomUsers user _ _ hne hin
          refine ⟨hr, subset_setAdd _ _ hrm, ?_⟩
          by_cases hrn : sanitizeInput data = r
          · refine ⟨_, (mapGet_mapSet _ _ _ _).trans (if_pos hrn), ?_⟩
            rw [hrn, hset]
            exact mem_setAdd.mpr (Or.inl hmem)
          · exact ⟨set, by simp [mapGet_mapSet, hrn, hset], hmem⟩

theorem inv_createRoom {s : State} (h : Inv s) (c : ConnId) (data : JSValue) :
    Inv (handleCreateRoom s c data).state := by
  rcases handleCreateRoom_cases s c data with
    ⟨_, he⟩ | ⟨_, _, he⟩ | ⟨_, _, _, he⟩ | ⟨_, _, _, he⟩
  · rw [he]; exact h
  · rw [he]; exact h
  · rw [he]; exact h
  · rw [he]
    refine ⟨h.keys, h.names, List.mem_append_left _ h.hasGeneral, ?_⟩
    intro c' u r hget hroom
    obtain ⟨hr, hrm, hin⟩ := h.member c' u r hget hroom
    exact ⟨hr, List.mem_append_left _ hrm, hin⟩

/-- The three ways `sendMessage` can end. -/
theorem handleSendMessage_cases (s : State) (c : ConnId) (data : JSValue) (now : JSString) :
    ((¬ ∃ u r, mapGet s.users c = some u ∧ u.room = some r ∧ r ≠ []) ∧
      handleSendMessage s c data now = fail s errNoRoom) ∨
    (∃ u r, mapGet s.users c = some u ∧ u.room = some r ∧ r ≠ [] ∧
      sanitizeInput data = [] ∧
      handleSendMessage s c data now = fail s errEmptyMessage) ∨
    (∃ u r, mapGet s.users c = some u ∧ u.room = some r ∧ r ≠ [] ∧
      sanitizeInput data ≠ [] ∧
      handleSendMessage s c data now =
        { state := s
          response := some .sendMessage
          effects := [.ioEmit r .newMessage (.message u.username (sanitizeInput data) now)] }) := by
  unfold handleSendMessage
  cases hu : mapGet s.users c with
  | none => simp
  | some user =>
    cases hroom : user.room with
    | none => simp [hroom]
    | some room =>
      by_cases h1 : room = []
      · simp [hroom, h1]
      · by_cases h2 : sanitizeInput data = []
        · simp [hroom, h1, h2]
        · simp [hroom, h1, h2]

theorem handleSendMessage_state (s : State) (c : ConnId) (data : JSValue) (now : JSString) :
    (handleSendMessage s c data now).state = s := by
  rcases handleSendMessage_cases s c data now with
    ⟨_, he⟩ | ⟨_, _, _, _, _, _, he⟩ | ⟨_, _, _, _, _, _, he⟩ <;> rw [he] <;> rfl

theorem inv_disconnect {s : State} (h : Inv s) (c : ConnId) :
    Inv (handleDisconnect s c).state := by
  unfold handleDisconnect
  cases hu : mapGet s.users c with
  | none => exact h
  | some user =>
    simp only [leaveOnDisconnect_fst]
    refine ⟨nodup_keys_mapDelete h.keys c, ?_, h.hasGeneral, ?_⟩
    · intro e1 m1 e2 m2 heq
      exact h.names e1 (mem_mapDelete.mp m1).1 e2 (mem_mapDelete.mp m2).1 heq
    · intro c' u r hget hroom
      simp only [mapGet_mapDelete] at hget
      by_cases hc : c = c'
      · simp [hc] at hget
      · simp only [hc, if_false] at hget
        obtain ⟨hr, hrm, hin⟩ := h.member c' u r hget hroom
        have hne : u.username ≠ user.username := by
          intro heq
          exact names_differ h hu hget hc (by rw [heq])
        exact ⟨hr, hrm, leavePrevious_keeps hne hin⟩

theorem inv_handle {s : State} (h : Inv s) (c : ConnId) (req : Request) :
    Inv (handle s c req).state := by
  cases req with
  | login username => exact inv_login h c username
  | joinRoom room => exact inv_joinRoom h c room
  | createRoom room => exact inv_createRoom h c room
  | sendMessage message now =>
    show Inv (handleSendMessage s c message now).state
    rw [handleSendMessage_state]
    exact h
  | getRooms => exact h
  | disconnect => exact inv_disconnect h c

theorem inv_run {s : State} (h : Inv s) (trace : List (ConnId × Request)) :
    Inv (run s trace) := by
  induction trace generalizing s with
  | nil => exact h
  | cons e rest ih =>
    obtain ⟨c, req⟩ := e
    exact ih (inv_handle h c req)

theorem inv_of_reachable {s : State} (h : Reachable s) : Inv s := by
  obtain ⟨trace, rfl⟩ := h
  exact inv_run inv_initial trace

theorem reachable_handle {s : State} (h : Reachable s) (c : ConnId) (req : Request) :
    Reachable (handle s c req).state := by
  obtain ⟨trace, rfl⟩ := h
  refine ⟨trace ++ [(c, req)], ?_⟩
  have key : ∀ (t : List (ConnId × Request)) (s0 : State),
      run s0 (t ++ [(c, req)]) = (handle (run s0 t) c req).state := by
    intro t
    induction t with
    | nil => intro s0; rfl
    | cons e rest ih =>
      intro s0
      obtain ⟨c0, r0⟩ := e
      exact ih _
  exact key trace initial

/-! ## Empty messages -/

theorem trim_eq_nil_iff (s : JSString) : trim s = [] ↔ ∀ ch ∈ s, isWhiteSpace ch = true := by
  have h1 : trim s = [] ↔ ∀ x ∈ s.dropWhile isWhiteSpace, isWhiteSpace x = true := by
    show List.rdropWhile isWhiteSpace (s.dropWhile isWhiteSpace) = [] ↔ _
    exact List.rdropWhile_eq_nil_iff
  rw [h1]
  constructor
  · intro h
    have hd : s.dropWhile isWhiteSpace = [] := by
      cases hh : s.dropWhile isWhiteSpace with
      | nil => rfl
      | cons a t =>
        have hhead := List.head?_dropWhile_not isWhiteSpace s
        rw [hh] at hhead h
        have ha := h a (List.mem_cons_self a t)
        simp only [List.head?_cons] at hhead
        rw [ha] at hhead
        exact absurd hhead (by simp)
    exact List.dropWhile_eq_nil_iff.mp hd
  · intro h x hx
    exact h x (List.dropWhile_subset isWhiteSpace hx)

theorem sanitizeInput_eq_nil_iff_whiteSpace (s : JSString) :
    sanitizeInput (.str s) = [] ↔ ∀ ch ∈ s, isWhiteSpace ch = true :=
  (sanitizeInput_eq_nil_iff s).trans (trim_eq_nil_iff s)

theorem sanitizeInput_noTrailing {s : JSString} (h : (trim s).length ≤ 200) :
    noTrailingWhiteSpace (sanitizeInput (.str s)) := by
  rw [sanitizeInput_eq_trim h]
  exact trim_noTrailing s

/-! ## The room set only grows -/

theorem rooms_subset_handle (s : State) (c : ConnId) (req : Request) :
    s.rooms ⊆ (handle s c req).state.rooms := by
  cases req with
  | login data =>
    show s.rooms ⊆ (handleLogin s c data).state.rooms
    rcases handleLogin_cases s c data with ⟨_, he⟩ | ⟨_, _, he⟩ | ⟨_, _, he⟩ <;> rw [he] <;>
      exact List.Subset.refl _
  | joinRoom data =>
    show s.rooms ⊆ (handleJoinRoom s c data).state.rooms
    cases hu : mapGet s.users c with
    | none =>
      have : handleJoinRoom s c data = fail s errNotLoggedIn := by
        simp [handleJoinRoom, hu]
      rw [this]
      exact List.Subset.refl _
    | some user =>
      by_cases hbad : sanitizeInput data = [] ∨ 30 < (sanitizeInput data).length
      · rw [handleJoinRoom_bad hu hbad]
        exact List.Subset.refl _
      · have h1 : sanitizeInput data ≠ [] := fun h0 => hbad (Or.inl h0)
        have h2 : (sanitizeInput data).length ≤ 30 := by
          by_contra h0
          exact hbad (Or.inr (by omega))
        rw [handleJoinRoom_ok hu h1 h2]
        exact subset_setAdd _ _
  | createRoom data =>
    show s.rooms ⊆ (handleCreateRoom s c data).state.rooms
    rcases handleCreateRoom_cases s c data with
      ⟨_, he⟩ | ⟨_, _, he⟩ | ⟨_, _, _, he⟩ | ⟨_, _, _, he⟩
    · rw [he]; exact List.Subset.refl _
    · rw [he]; exact List.Subset.refl _
    · rw [he]; exact List.Subset.refl _
    · rw [he]; exact List.subset_append_left _ _
  | sendMessage data now =>
    show s.rooms ⊆ (handleSendMessage s c data now).state.rooms
    rw [handleSendMessage_state]
    exact List.Subset.refl _
  | getRooms => exact List.Subset.refl _
  | disconnect =>
    show s.rooms ⊆ (handleDisconnect s c).state.rooms
    unfold handleDisconnect
    cases mapGet s.users c <;> exact List.Subset.refl _

theorem rooms_subset_run (s : State) (trace : List (ConnId × Request)) :
    s.rooms ⊆ (run s trace).rooms := by
  induction trace generalizing s with
  | nil => exact List.Subset.refl _
  | cons e rest ih =>
    obtain ⟨c, req⟩ := e
    exact List.Subset.trans (rooms_subset_handle s c req) (ih _)

/-- The room list of an answer is the room set after the request. -/
theorem roomList_eq_rooms (s : State) (c : ConnId) (req : Request) (resp : Response)
    (rooms : List JSString) (hresp : (handle s c req).response = some resp)
    (hl : resp.roomList = some rooms) : rooms = (handle s c req).state.rooms := by
  cases req with
  | login data =>
    change (handleLogin s c data).response = some resp at hresp
    show rooms = (handleLogin s c data).state.rooms
    rcases handleLogin_cases s c data with ⟨_, he⟩ | ⟨_, _, he⟩ | ⟨_, _, he⟩ <;>
      rw [he] at hresp ⊢ <;> simp only [fail, Option.some.injEq] at hresp <;>
      rw [← hresp] at hl <;> simp [Response.roomList] at hl
    exact hl.symm
  | joinRoom data =>
    change (handleJoinRoom s c data).response = some resp at hresp
    show rooms = (handleJoinRoom s c data).state.rooms
    cases hu : mapGet s.users c with
    | none =>
      have : handleJoinRoom s c data = fail s errNotLoggedIn := by
        simp [handleJoinRoom, hu]
      rw [this] at hresp
      simp only [fail, Option.some.injEq] at hresp
      rw [← hresp] at hl
      simp [Response.roomList] at hl
    | some user =>
      by_cases hbad : sanitizeInput data = [] ∨ 30 < (sanitizeInput data).length
      · rw [handleJoinRoom_bad hu hbad] at hresp
        simp only [fail, Option.some.injEq] at hresp
        rw [← hresp] at hl
        simp [Response.roomList] at hl
      · have h1 : sanitizeInput data ≠ [] := fun h0 => hbad (Or.inl h0)
        have h2 : (sanitizeInput data).length ≤ 30 := by
          by_contra h0
          exact hbad (Or.inr (by omega))
        rw [handleJoinRoom_ok hu h1 h2] at hresp ⊢
        simp only [Option.some.injEq] at hresp
        rw [← hresp] at hl
        simp only [Response.roomList, Option.some.injEq] at hl
        exact hl.symm
  | createRoom data =>
    change (handleCreateRoom s c data).response = some resp at hresp
    show rooms = (handleCreateRoom s c data).state.rooms
    rcases handleCreateRoom_cases s c data with
      ⟨_, he⟩ | ⟨_, _, he⟩ | ⟨_, _, _, he⟩ | ⟨_, _, _, he⟩ <;>
      rw [he] at hresp ⊢ <;> simp only [fail, Option.some.injEq] at hresp <;>
      rw [← hresp] at hl <;> simp [Response.roomList] at hl
    exact hl.symm
  | sendMessage data now =>
    change (handleSendMessage s c data now).response = some resp at hresp
    rcases handleSendMessage_cases s c data now with
      ⟨_, he⟩ | ⟨_, _, _, _, _, _, he⟩ | ⟨_, _, _, _, _, _, he⟩ <;>
      rw [he] at hresp <;> simp only [fail, Option.some.injEq] at hresp <;>
      rw [← hresp] at hl <;> simp [Response.roomList] at hl
  | getRooms =>
    change some (Response.getRooms s.rooms) = some resp at hresp
    simp only [Option.some.injEq] at hresp
    rw [← hresp] at hl
    simp only [Response.roomList, Option.some.injEq] at hl
    exact hl.symm
  | disconnect =>
    change (handleDisconnect s c).response = some resp at hresp
    unfold handleDisconnect at hresp
    cases hu : mapGet s.users c with
    | none => simp [hu] at hresp
    | some user => simp [hu] at hresp

/-- A room answered by a successful `joinRoom` or `createRoom` is in the room
set after the request. -/
theorem entered_room_mem (s : State) (c : ConnId) (req : Request) (r : JSString)
    (h : (∃ members rooms, (handle s c req).response = some (.joinRoom r members rooms)) ∨
      (∃ rooms, (handle s c req).response = some (.createRoom r rooms))) :
    r ∈ (handle s c req).state.rooms := by
  cases req with
  | login data =>
    exfalso
    change (∃ members rooms, (handleLogin s c data).response = _) ∨
      (∃ rooms, (handleLogin s c data).response = _) at h
    rcases handleLogin_cases s c data with ⟨_, he⟩ | ⟨_, _, he⟩ | ⟨_, _, he⟩ <;>
      rw [he] at h <;> simp [fail] at h
  | joinRoom data =>
    change (∃ members rooms, (handleJoinRoom s c data).response = _) ∨
      (∃ rooms, (handleJoinRoom s c data).response = _) at h
    show r ∈ (handleJoinRoom s c data).state.rooms
    cases hu : mapGet s.users c with
    | none =>
      have : handleJoinRoom s c data = fail s errNotLoggedIn := by
        simp [handleJoinRoom, hu]
      rw [this] at h
      simp [fail] at h
    | some user =>
      by_cases hbad : sanitizeInput data = [] ∨ 30 < (sanitizeInput data).length
      · rw [handleJoinRoom_bad hu hbad] at h
        simp [fail] at h
      · have h1 : sanitizeInput data ≠ [] := fun h0 => hbad (Or.inl h0)
        have h2 : (sanitizeInput data).length ≤ 30 := by
          by_contra h0
          exact hbad (Or.inr (by omega))
        rw [handleJoinRoom_ok hu h1 h2] at h ⊢
        simp only [Option.some.injEq, Response.joinRoom.injEq, reduceCtorEq, exists_false,
          or_false] at h
        obtain ⟨_, _, hr, _, _⟩ := h
        rw [← hr]
        exact mem_setAdd.mpr (Or.inr rfl)
  | createRoom data =>
    change (∃ members rooms, (handleCreateRoom s c data).response = _) ∨
      (∃ rooms, (handleCreateRoom s c data).response = _) at h
    show r ∈ (handleCreateRoom s c data).state.rooms
    rcases handleCreateRoom_cases s c data with
      ⟨_, he⟩ | ⟨_, _, he⟩ | ⟨_, _, _, he⟩ | ⟨_, _, _, he⟩
    · rw [he] at h; simp [fail] at h
    · rw [he] at h; simp [fail] at h
    · rw [he] at h; simp [fail] at h
    · rw [he] at h ⊢
      simp only [Option.some.injEq, reduceCtorEq, exists_false, false_or,
        Response.createRoom.injEq] at h
      obtain ⟨_, hr, _⟩ := h
      rw [← hr]
      simp
  | sendMessage data now =>
    exfalso
    change (∃ members rooms, (handleSendMessage s c data now).response = _) ∨
      (∃ rooms, (handleSendMessage s c data now).response = _) at h
    rcases handleSendMessage_cases s c data now with
      ⟨_, he⟩ | ⟨_, _, _, _, _, _, he⟩ | ⟨_, _, _, _, _, _, he⟩ <;>
      rw [he] at h <;> simp [fail] at h
  | getRooms =>
    exfalso
    change (∃ members rooms, some (Response.getRooms s.rooms) = _) ∨
      (∃ rooms, some (Response.getRooms s.rooms) = _) at h
    simp at h
  | disconnect =>
    exfalso
    change (∃ members rooms, (handleDisconnect s c).response = _) ∨
      (∃ rooms, (handleDisconnect s c).response = _) at h
    unfold handleDisconnect at h
    cases hu : mapGet s.users c with
    | none => simp [hu] at h
    | some user => simp [hu] at h

theorem leavePrevious_effects {ru : List (JSString × List JSString)} {u : User}
    {r : JSString} {members : List JSString} (hroom : u.room = some r) (hr : r ≠ [])
    (hg : mapGet ru r = some members) :
    (leavePrevious ru u).2 = [.leave r, .ioEmit r .userLeft (.user u.username)] := by
  unfold leavePrevious
  have hp : r.isEmpty = false := by
    cases r with
    | nil => exact absurd rfl hr
    | cons a t => rfl
  simp [hroom, hp, hg]

/-! ## What the validity check does establish -/

theorem mem_trim_or_whiteSpace (s : JSString) (ch : Nat) (h : ch ∈ s) :
    ch ∈ trim s ∨ isWhiteSpace ch = true := by
  have h1 : s = s.takeWhile isWhiteSpace ++ s.dropWhile isWhiteSpace :=
    (List.takeWhile_append_dropWhile isWhiteSpace s).symm
  have h2 : s.dropWhile isWhiteSpace =
      trim s ++ List.rtakeWhile isWhiteSpace (s.dropWhile isWhiteSpace) := by
    have h3 := List.takeWhile_append_dropWhile isWhiteSpace (s.dropWhile isWhiteSpace).reverse
    have h4 := congrArg List.reverse h3
    rw [List.reverse_append, List.reverse_reverse] at h4
    exact h4.symm
  rw [h1, List.mem_append] at h
  rcases h with h | h
  · exact Or.inr (List.mem_takeWhile_imp h)
  · rw [h2, List.mem_append] at h
    rcases h with h | h
    · exact Or.inl h
    · exact Or.inr (List.mem_rtakeWhile_imp h)

/-- A name accepted by `isValidUsername` is, once trimmed, a name of the
pattern; the name itself may carry white space around it. -/
theorem trim_matches_of_isValidUsername {s : JSString} (h : isValidUsername (.str s) = true) :
    matchesNamePattern (trim s) := by
  have hp := ((isValidUsername_iff s).mp h).2
  have hlen : (trim s).length ≤ 200 := by
    have h20 := hp.2.1
    simp only [sanitizeInput, slice0, List.length_take] at h20
    omega
  rw [sanitizeInput_eq_trim hlen] at hp
  exact hp

/-- A name accepted by `isValidUsername` holds only characters of the class
`[a-zA-Z0-9_]` and white space, on which `lowerUnit` is the lower-casing of
JavaScript. -/
theorem units_of_isValidUsername {s : JSString} (h : isValidUsername (.str s) = true) :
    ∀ ch ∈ s, isWordChar ch = true ∨ isWhiteSpace ch = true := by
  intro ch hch
  rcases mem_trim_or_whiteSpace s ch hch with h1 | h1
  · exact Or.inl ((trim_matches_of_isValidUsername h).2.2 ch h1)
  · exact Or.inr h1

/-- Every name stored in a reachable state passed `isValidUsername`: trimmed
once more, it matches the pattern. -/
theorem stored_names_valid {s : State} (hs : Reachable s) :
    ∀ c u, session s c = some u →
      isValidUsername (.str u.username) = true ∧ matchesNamePattern (trim u.username) := by
  have step : ∀ (s : State) (c : ConnId) (req : Request),
      (∀ e ∈ s.users, isValidUsername (.str e.2.username) = true) →
      ∀ e ∈ (handle s c req).state.users, isValidUsername (.str e.2.username) = true := by
    intro s c req ih
    cases req with
    | login data =>
      show ∀ e ∈ (handleLogin s c data).state.users, _
      rcases handleLogin_cases s c data with ⟨_, he⟩ | ⟨_, _, he⟩ | ⟨hv, _, he⟩
      · rw [he]; exact ih
      · rw [he]; exact ih
      · rw [he]
        intro e hmem
        rcases mem_mapSet hmem with h1 | h1
        · rw [h1]; exact hv
        · exact ih e h1
    | joinRoom data =>
      show ∀ e ∈ (handleJoinRoom s c data).state.users, _
      cases hu : mapGet s.users c with
      | none =>
        have : handleJoinRoom s c data = fail s errNotLoggedIn := by
          simp [handleJoinRoom, hu]
        rw [this]
        exact ih
      | some user =>
        by_cases hbad : sanitizeInput data = [] ∨ 30 < (sanitizeInput data).length
        · rw [handleJoinRoom_bad hu hbad]
          exact ih
        · have h1 : sanitizeInput data ≠ [] := fun h0 => hbad (Or.inl h0)
          have h2 : (sanitizeInput data).length ≤ 30 := by
            by_contra h0
            exact hbad (Or.inr (by omega))
          rw [handleJoinRoom_ok hu h1 h2]
          intro e hmem
          rcases mem_mapSet hmem with h3 | h3
          · rw [h3]
            exact ih (c, user) (mem_of_mapGet hu)
          · exact ih e h3
    | createRoom data =>
      show ∀ e ∈ (handleCreateRoom s c data).state.users, _
      rcases handleCreateRoom_cases s c data with
        ⟨_, he⟩ | ⟨_, _, he⟩ | ⟨_, _, _, he⟩ | ⟨_, _, _, he⟩ <;> rw [he] <;> exact ih
    | sendMessage data now =>
      show ∀ e ∈ (handleSendMessage s c data now).state.users, _
      rw [handleSendMessage_state]
      exact ih
    | getRooms => exact ih
    | disconnect =>
      show ∀ e ∈ (handleDisconnect s c).state.users, _
      unfold handleDisconnect
      cases hu : mapGet s.users c with
      | none => exact ih
      | some user =>
        intro e hmem
        exact ih e (mem_mapDelete.mp hmem).1
  have all : ∀ (trace : List (ConnId × Request)) (s0 : State),
      (∀ e ∈ s0.users, isValidUsername (.str e.2.username) = true) →
      ∀ e ∈ (run s0 trace).users, isValidUsername (.str e.2.username) = true := by
    intro trace
    induction trace with
    | nil => intro s0 h0; exact h0
    | cons a rest ih =>
      intro s0 h0
      obtain ⟨c, req⟩ := a
      exact ih _ (step s0 c req h0)
  obtain ⟨trace, rfl⟩ := hs
  intro c u hu
  have hv := all trace initial (by intro e he; simp [initial] at he) (c, u) (mem_of_mapGet hu)
  exact ⟨hv, trim_matches_of_isValidUsername hv⟩

/-! ## Membership and sessions when every login is the first of its connection -/

theorem mem_membersOf_iff (s : State) (r n : JSString) :
    n ∈ membersOf s r ↔ InRoom s.roomUsers r n := by
  unfold membersOf InRoom
  cases mapGet s.roomUsers r with
  | none => simp
  | some members => simp

theorem leavePrevious_sub {ru : List (JSString × List JSString)} {u : User} {r n : JSString}
    (h : InRoom (leavePrevious ru u).1 r n) :
    InRoom ru r n ∧ (u.room = some r → r ≠ [] → n ≠ u.username) := by
  by_cases hroom : u.room = some r
  · by_cases hr : r = []
    · have hsame : (leavePrevious ru u).1 = ru := by
        unfold leavePrevious
        simp [hroom, hr]
      rw [hsame] at h
      exact ⟨h, fun _ hne => absurd hr hne⟩
    · refine ⟨?_, fun _ _ hn => ?_⟩
      · obtain ⟨members, hm, hmem⟩ := h
        rw [leavePrevious_get_prev ru u r hroom hr] at hm
        cases hg : mapGet ru r with
        | none => simp [hg] at hm
        | some old =>
          simp only [hg, Option.some_bind] at hm
          by_cases hl : setDelete old u.username = []
          · simp [hl] at hm
          · simp only [hl, if_false, Option.some.injEq] at hm
            rw [← hm] at hmem
            exact ⟨old, hg, (mem_setDelete.mp hmem).1⟩
      · rw [hn] at h
        exact leavePrevious_removes ru u r hroom hr h
  · obtain ⟨members, hm, hmem⟩ := h
    rw [leavePrevious_get_other ru u r hroom] at hm
    exact ⟨⟨members, hm, hmem⟩, fun h0 => absurd h0 hroom⟩

theorem mirrors_handle {s : State} (hinv : Inv s) (hm : Mirrors s) (c : ConnId)
    (req : Request) (hfirst : ∀ data, req = .login data → session s c = none) :
    Mirrors (handle s c req).state := by
  have hleft : ∀ (user : User), mapGet s.users c = some user → ∀ r n,
      InRoom (leavePrevious s.roomUsers user).1 r n →
      ∃ c' u, c' ≠ c ∧ mapGet s.users c' = some u ∧ u.username = n ∧ u.room = some r := by
    intro user hu r n hin
    obtain ⟨hold, hnot⟩ := leavePrevious_sub hin
    obtain ⟨c', u', hu', hn', hr'⟩ := hm r n hold
    refine ⟨c', u', ?_, hu', hn', hr'⟩
    intro hc
    rw [hc, hu] at hu'
    have hsame : user = u' := Option.some.inj hu'
    rw [← hsame] at hn' hr'
    exact hnot hr' (hinv.member c user r hu hr').1 hn'.symm
  cases req with
  | login data =>
    have hnone : mapGet s.users c = none := hfirst data rfl
    show Mirrors (handleLogin s c data).state
    rcases handleLogin_cases s c data with ⟨_, he⟩ | ⟨_, _, he⟩ | ⟨_, _, he⟩
    · rw [he]; exact hm
    · rw [he]; exact hm
    · rw [he]
      intro r n hin
      obtain ⟨c', u', hu', hn', hr'⟩ := hm r n hin
      refine ⟨c', u', ?_, hn', hr'⟩
      show mapGet (mapSet _ _ _) c' = _
      rw [mapGet_mapSet]
      have hc : c ≠ c' := by
        intro hc
        rw [hc] at hnone
        rw [hnone] at hu'
        exact absurd hu' (by simp)
      rw [if_neg hc]
      exact hu'
  | joinRoom data =>
    show Mirrors (handleJoinRoom s c data).state
    cases hu : mapGet s.users c with
    | none =>
      have : handleJoinRoom s c data = fail s errNotLoggedIn := by
        simp [handleJoinRoom, hu]
      rw [this]
      exact hm
    | some user =>
      by_cases hbad : sanitizeInput data = [] ∨ 30 < (sanitizeInput data).length
      · rw [handleJoinRoom_bad hu hbad]
        exact hm
      · have h1 : sanitizeInput data ≠ [] := fun h0 => hbad (Or.inl h0)
        have h2 : (sanitizeInput data).length ≤ 30 := by
          by_contra h0
          exact hbad (Or.inr (by omega))
        rw [handleJoinRoom_ok hu h1 h2]
        rintro r n ⟨members, hget, hmem⟩
        change mapGet (mapSet _ _ _) r = some members at hget
        rw [mapGet_mapSet] at hget
        have hother : InRoom (leavePrevious s.roomUsers user).1 r n →
            ∃ c1 u1, mapGet (mapSet s.users c
              { username := user.username, room := some (sanitizeInput data) }) c1 = some u1 ∧
              u1.username = n ∧ u1.room = some r := by
          intro hin
          obtain ⟨c', u', hc', hu', hn', hr'⟩ := hleft user hu r n hin
          refine ⟨c', u', ?_, hn', hr'⟩
          rw [mapGet_mapSet, if_neg (Ne.symm hc')]
          exact hu'
        by_cases hrn : sanitizeInput data = r
        · rw [if_pos hrn] at hget
          have hmem2 := hmem
          rw [← Option.some.inj hget] at hmem2
          rcases mem_setAdd.mp hmem2 with h3 | h3
          · apply hother
            cases hg : mapGet (leavePrevious s.roomUsers user).1 (sanitizeInput data) with
            | none => simp [hg] at h3
            | some old =>
              rw [hg] at h3
              rw [← hrn]
              exact ⟨old, hg, by simpa using h3⟩
          · refine ⟨c, { username := user.username, room := some (sanitizeInput data) },
              (mapGet_mapSet _ _ _ _).trans (if_pos rfl), h3.symm, ?_⟩
            rw [hrn]
        · rw [if_neg hrn] at hget
          exact hother ⟨members, hget, hmem⟩
  | createRoom data =>
    show Mirrors (handleCreateRoom s c data).state
    rcases handleCreateRoom_cases s c data with
      ⟨_, he⟩ | ⟨_, _, he⟩ | ⟨_, _, _, he⟩ | ⟨_, _, _, he⟩ <;> rw [he] <;> exact hm
  | sendMessage data now =>
    show Mirrors (handleSendMessage s c data now).state
    rw [handleSendMessage_state]
    exact hm
  | getRooms => exact hm
  | disconnect =>
    show Mirrors (handleDisconnect s c).state
    unfold handleDisconnect
    cases hu : mapGet s.users c with
    | none => exact hm
    | some user =>
      simp only [leaveOnDisconnect_fst]
      intro r n hin
      obtain ⟨c', u', hc', hu', hn', hr'⟩ := hleft user hu r n hin
      refine ⟨c', u', ?_, hn', hr'⟩
      show mapGet (mapDelete s.users c) c' = _
      rw [mapGet_mapDelete, if_neg (Ne.symm hc')]
      exact hu'

/-- When no connection logs in twice, room membership mirrors the session
registry after every sequence of events: a name is in the membership set of a
room exactly when an active session has that name and that current room. -/
theorem membership_mirrors_sessions_of_first_logins (trace : List (ConnId × Request))
    (hfirst : loginsAreFirst initial trace = true) (r n : JSString) :
    n ∈ membersOf (run initial trace) r ↔
      ∃ c u, session (run initial trace) c = some u ∧ u.username = n ∧ u.room = some r := by
  have all : ∀ (t : List (ConnId × Request)) (s : State), Inv s → Mirrors s →
      loginsAreFirst s t = true → Mirrors (run s t) := by
    intro t
    induction t with
    | nil => intro s _ hm _; exact hm
    | cons a rest ih =>
      intro s hinv hm hf
      obtain ⟨c, req⟩ := a
      cases req with
      | login data =>
        have hf2 : ((session s c).isNone &&
            loginsAreFirst (handle s c (.login data)).state rest) = true := hf
        rw [Bool.and_eq_true] at hf2
        have hnone : session s c = none := Option.isNone_iff_eq_none.mp hf2.1
        exact ih _ (inv_handle hinv c _) (mirrors_handle hinv hm c _
          (fun d hd => by cases hd; exact hnone)) hf2.2
      | joinRoom data =>
        exact ih _ (inv_handle hinv c _) (mirrors_handle hinv hm c _
          (fun d hd => by cases hd)) hf
      | createRoom data =>
        exact ih _ (inv_handle hinv c _) (mirrors_handle hinv hm c _
          (fun d hd => by cases hd)) hf
      | sendMessage data now =>
        exact ih _ (inv_handle hinv c _) (mirrors_handle hinv hm c _
          (fun d hd => by cases hd)) hf
      | getRooms =>
        exact ih _ (inv_handle hinv c _) (mirrors_handle hinv hm c _
          (fun d hd => by cases hd)) hf
      | disconnect =>
        exact ih _ (inv_handle hinv c _) (mirrors_handle hinv hm c _
          (fun d hd => by cases hd)) hf
  have hm0 : Mirrors initial := by
    rintro r n ⟨members, hg, _⟩
    simp [initial, mapGet] at hg
  rw [mem_membersOf_iff]
  constructor
  · exact all trace initial inv_initial hm0 hfirst r n
  · rintro ⟨c, u, hu, hn, hr⟩
    rw [← hn]
    exact ((inv_run inv_initial trace).member c u r hu hr).2.2

/-- The previous fact on a trace with two connections: after `alice` and `bob`
logged in and joined `general`, `bob` is a member of `general` exactly because
a session named `bob` is in `general`. -/
theorem membership_mirrors_sessions_example :
    bob ∈ membersOf aliceAndBobInGeneral general ↔
      ∃ c u, session aliceAndBobInGeneral c = some u ∧ u.username = bob ∧
        u.room = some general :=
  membership_mirrors_sessions_of_first_logins
    [(1, .login (.str alice)), (2, .login (.str bob)),
      (1, .joinRoom (.str general)), (2, .joinRoom (.str general))]
    (by decide) general bob

/-! ## The scenarios of the specification, run on the model -/

/-- The fourth scenario: `createRoom` of `Team1` succeeds, a second one is
answered room-exists, and `a b` is refused for its space. -/
theorem createRoom_scenario :
    handle aliceLoggedIn 1 (.createRoom (.str team1)) =
      { state := { aliceLoggedIn with rooms := [general, team1] }
        response := some (.createRoom team1 [general, team1])
        effects := [] } ∧
    (handle (handle aliceLoggedIn 1 (.createRoom (.str team1))).state 1
      (.createRoom (.str team1))).response = some (.failure errRoomExists) ∧
    (handle aliceLoggedIn 1 (.createRoom (.str aSpaceB))).response =
      some (.failure errCreateRoomName) := by
  refine ⟨rfl, rfl, rfl⟩

/-- The third scenario: `alice` and `bob` in `general`; a message of `alice`
goes to the whole room, and the disconnect of `bob` is announced to the others. -/
theorem two_sessions_scenario :
    (handle aliceAndBobInGeneral 1 (.sendMessage (.str hi) [])).effects =
      [.ioEmit general .newMessage (.message alice hi [])] ∧
    (handle aliceAndBobInGeneral 2 .disconnect).effects =
      [.socketEmit general .userLeft (.user bob)] ∧
    (handle aliceAndBobInGeneral 2 .disconnect).state.roomUsers = [(general, [alice])] := by
  refine ⟨rfl, rfl, rfl⟩

/-! ## The properties of the specification -/

/-- C1: display names are unique ignoring case among the active sessions of
every reachable state, and a login whose sanitized name passes the validity
check is answered with the name-taken error exactly when some active session
has the same name ignoring case; otherwise it succeeds, answers the sanitized
name with the room list and stores a session without room. -/
theorem login_names_unique_ignoring_case :
    (∀ s, Reachable s → ∀ c1 c2 u1 u2,
      session s c1 = some u1 → session s c2 = some u2 → c1 ≠ c2 →
      toLowerCase u1.username ≠ toLowerCase u2.username) ∧
    (∀ s, Reachable s → ∀ c data,
      isValidUsername (.str (sanitizeInput data)) = true →
      ((∃ c' u, session s c' = some u ∧
          toLowerCase u.username = toLowerCase (sanitizeInput data)) →
        handle s c (.login data) = fail s errNameTaken) ∧
      ((¬ ∃ c' u, session s c' = some u ∧
          toLowerCase u.username = toLowerCase (sanitizeInput data)) →
        (handle s c (.login data)).response = some (.login (sanitizeInput data) s.rooms) ∧
        session (handle s c (.login data)).state c =
          some { username := sanitizeInput data, room := none })) ∧
    (∀ name, matchesNamePattern name →
      sanitizeInput (.str name) = name ∧ isValidUsername (.str name) = true) := by
  refine ⟨?_, ?_, ?_⟩
  · intro s hs c1 c2 u1 u2 h1 h2 hc heq
    exact names_differ (inv_of_reachable hs) h2 h1 hc.symm heq
  · intro s hs c data hv
    have hinv := inv_of_reachable hs
    show _ ∧ _
    rcases handleLogin_cases s c data with ⟨hv', _⟩ | ⟨_, ht, he⟩ | ⟨_, ht, he⟩
    · rw [hv] at hv'
      exact absurd hv' (by simp)
    · refine ⟨fun _ => he, fun hno => ?_⟩
      exfalso
      obtain ⟨e, he1, he2⟩ := isUsernameTaken_eq_true ht
      exact hno ⟨e.1, e.2, mapGet_of_mem hinv.keys he1, he2⟩
    · refine ⟨fun hex => ?_, fun _ => ?_⟩
      · exfalso
        obtain ⟨c', u, hu, hl⟩ := hex
        exact isUsernameTaken_eq_false ht (c', u) (mem_of_mapGet hu) hl
      · show (handleLogin s c data).response = _ ∧ session (handleLogin s c data).state c = _
        rw [he]
        exact ⟨rfl, (mapGet_mapSet _ _ _ _).trans (if_pos rfl)⟩
  · intro name h
    exact ⟨sanitizeInput_of_pattern h, isValidUsername_of_pattern h⟩

/-- C1, on the first scenario of the specification: with `alice` logged in on
one connection, a login as `Alice` on another one is answered name-taken. -/
theorem login_names_unique_ignoring_case_witness :
    handle aliceLoggedIn 2 (.login (.str aliceCapital)) = fail aliceLoggedIn errNameTaken :=
  (login_names_unique_ignoring_case.2.1 aliceLoggedIn ⟨[(1, .login (.str alice))], rfl⟩ 2
    (.str aliceCapital) (by decide)).1 ⟨1, { username := alice, room := none }, by decide, by decide⟩

set_option maxRecDepth 100000 in
/-- C2, as observed: a login as `ab`, 198 spaces and `x` is accepted. The name
kept is its first 200 code units, `ab` and 198 spaces, because the validity
check trims its argument once more and looks at `ab` only; the session stored
and the name answered do not match the pattern. -/
theorem login_accepts_padded_name :
    sanitizeInput (.str paddedName) = paddedNameCut ∧
    isValidUsername (.str paddedNameCut) = true ∧
    handle initial 1 (.login (.str paddedName)) =
      { state :=
          { users := [(1, { username := paddedNameCut, room := none })]
            rooms := [general]
            roomUsers := [] }
        response := some (.login paddedNameCut [general])
        effects := [] } ∧
    paddedNameCut.length = 200 ∧
    ¬ matchesNamePattern paddedNameCut := by
  refine ⟨rfl, rfl, rfl, rfl, ?_⟩
  intro h
  have h20 : paddedNameCut.length ≤ 20 := h.2.1
  have h200 : paddedNameCut.length = 200 := rfl
  omega

/-- C3: in every reachable state `sendMessage` answers success if and only if
the connection has a session, the session has a current room and the sanitized
text is not empty. A success emits exactly one `newMessage` to the whole
current room, carrying the display name of the session and the sanitized text.
Every other case is answered with a failure and emits nothing; with a session
in a room, a sanitized text that is empty (in particular a text of white space
only) gets the empty-message error. The storage is never changed. -/
theorem sendMessage_succeeds_exactly_when_allowed (s : State) (hs : Reachable s)
    (c : ConnId) (data : JSValue) (now : JSString) :
    ((handle s c (.sendMessage data now)).response = some .sendMessage ↔
      ∃ u r, session s c = some u ∧ u.room = some r ∧ sanitizeInput data ≠ []) ∧
    (∀ u r, session s c = some u → u.room = some r → sanitizeInput data ≠ [] →
      (handle s c (.sendMessage data now)).effects =
        [.ioEmit r .newMessage (.message u.username (sanitizeInput data) now)]) ∧
    ((handle s c (.sendMessage data now)).response ≠ some .sendMessage →
      (handle s c (.sendMessage data now)).effects = [] ∧
      ∃ e, (handle s c (.sendMessage data now)).response = some (.failure e)) ∧
    (∀ u r, session s c = some u → u.room = some r → sanitizeInput data = [] →
      (handle s c (.sendMessage data now)).response = some (.failure errEmptyMessage)) ∧
    (∀ text : JSString, (∀ ch ∈ text, isWhiteSpace ch = true) →
      sanitizeInput (.str text) = []) ∧
    (handle s c (.sendMessage data now)).state = s := by
  have hinv := inv_of_reachable hs
  have hstate := handleSendMessage_state s c data now
  show ((handleSendMessage s c data now).response = _ ↔ _) ∧
    (∀ u r, _ → _ → _ → (handleSendMessage s c data now).effects = _) ∧
    (_ → (handleSendMessage s c data now).effects = [] ∧
      ∃ e, (handleSendMessage s c data now).response = _) ∧
    (∀ u r, _ → _ → _ → (handleSendMessage s c data now).response = _) ∧ _ ∧
    (handleSendMessage s c data now).state = s
  refine ⟨?_, ?_, ?_, ?_, fun text h => (sanitizeInput_eq_nil_iff_whiteSpace text).mpr h, hstate⟩
  · rcases handleSendMessage_cases s c data now with
      ⟨hno, he⟩ | ⟨u, r, hu, hr, hne, hm, he⟩ | ⟨u, r, hu, hr, hne, hm, he⟩
    · rw [he]
      constructor
      · intro h
        simp [fail] at h
      · rintro ⟨u, r, hu, hr, _⟩
        exact absurd ⟨u, r, hu, hr, (hinv.member c u r hu hr).1⟩ hno
    · rw [he]
      constructor
      · intro h
        simp [fail] at h
      · rintro ⟨_, _, _, _, h⟩
        exact absurd hm h
    · rw [he]
      exact ⟨fun _ => ⟨u, r, hu, hr, hm⟩, fun _ => rfl⟩
  · intro u r hu hr hm
    rcases handleSendMessage_cases s c data now with
      ⟨hno, _⟩ | ⟨_, _, _, _, _, hm', _⟩ | ⟨u', r', hu', hr', _, _, he⟩
    · exact absurd ⟨u, r, hu, hr, (hinv.member c u r hu hr).1⟩ hno
    · exact absurd hm' hm
    · have h1 : u' = u := Option.some.inj (hu'.symm.trans hu)
      subst h1
      have h2 : r' = r := Option.some.inj (hr'.symm.trans hr)
      subst h2
      rw [he]
  · intro hresp
    rcases handleSendMessage_cases s c data now with
      ⟨_, he⟩ | ⟨_, _, _, _, _, _, he⟩ | ⟨_, _, _, _, _, _, he⟩
    · rw [he]
      exact ⟨rfl, _, rfl⟩
    · rw [he]
      exact ⟨rfl, _, rfl⟩
    · change (handleSendMessage s c data now).response ≠ _ at hresp
      rw [he] at hresp
      exact absurd rfl hresp
  · intro u r hu hr hm
    rcases handleSendMessage_cases s c data now with
      ⟨hno, _⟩ | ⟨_, _, _, _, _, _, he⟩ | ⟨_, _, _, _, _, hm', _⟩
    · exact absurd ⟨u, r, hu, hr, (hinv.member c u r hu hr).1⟩ hno
    · rw [he]
      rfl
    · exact absurd hm hm'

/-- C3, on the second scenario of the specification: `alice` in `general`
sends `hi` and one `newMessage` goes to the whole room. -/
theorem sendMessage_succeeds_exactly_when_allowed_witness :
    (handle aliceInGeneral 1 (.sendMessage (.str hi) [])).effects =
      [.ioEmit general .newMessage (.message alice hi [])] :=
  (sendMessage_succeeds_exactly_when_allowed aliceInGeneral
    ⟨[(1, .login (.str alice)), (1, .joinRoom (.str general))], rfl⟩ 1 (.str hi) []).2.1
    { username := alice, room := some general } general (by decide) rfl (by decide)

/-- C4: for a connection with a session, `joinRoom` succeeds for every room
name whose trimmed length is between 1 and 30, whatever its characters. After
it the trimmed name is in the room set (appended when it was absent), it is the
current room of the session, the display name of the caller is in the
membership set of that room, and the member list answered is that set: it holds
the caller, and it is the caller alone when the room had no member. A name whose
trimmed length is 0 or more than 30 is answered with the room-name error. -/
theorem joinRoom_accepts_any_name_of_length_1_to_30 (s : State) (c : ConnId) (u : User)
    (name : JSString) (hu : session s c = some u) :
    (1 ≤ (trim name).length ∧ (trim name).length ≤ 30 →
      ∃ members,
        (handle s c (.joinRoom (.str name))).response =
          some (.joinRoom (trim name) members (handle s c (.joinRoom (.str name))).state.rooms) ∧
        trim name ∈ (handle s c (.joinRoom (.str name))).state.rooms ∧
        (handle s c (.joinRoom (.str name))).state.rooms =
          (if trim name ∈ s.rooms then s.rooms else s.rooms ++ [trim name]) ∧
        session (handle s c (.joinRoom (.str name))).state c =
          some { username := u.username, room := some (trim name) } ∧
        mapGet (handle s c (.joinRoom (.str name))).state.roomUsers (trim name) = some members ∧
        u.username ∈ members ∧
        (membersOf s (trim name) = [] → members = [u.username])) ∧
    ((trim name).length = 0 ∨ 30 < (trim name).length →
      handle s c (.joinRoom (.str name)) = fail s errJoinRoomName) := by
  change mapGet s.users c = some u at hu
  constructor
  · rintro ⟨h1, h2⟩
    have hsan : sanitizeInput (.str name) = trim name := sanitizeInput_eq_trim (by omega)
    have hne : sanitizeInput (.str name) ≠ [] := by
      rw [hsan]
      exact List.length_pos.mp (by omega)
    have hok := handleJoinRoom_ok (s := s) (c := c) hu hne (by rw [hsan]; exact h2)
    rw [hsan] at hok
    refine ⟨setAdd ((mapGet (leavePrevious s.roomUsers u).1 (trim name)).getD []) u.username,
      ?_, ?_, ?_, ?_, ?_, ?_, ?_⟩
    · show (handleJoinRoom s c (.str name)).response =
        some (.joinRoom _ _ (handleJoinRoom s c (.str name)).state.rooms)
      rw [hok]
    · show trim name ∈ (handleJoinRoom s c (.str name)).state.rooms
      rw [hok]
      exact mem_setAdd.mpr (Or.inr rfl)
    · show (handleJoinRoom s c (.str name)).state.rooms = _
      rw [hok]
      by_cases hm : trim name ∈ s.rooms <;> simp [setAdd, hm]
    · show mapGet (handleJoinRoom s c (.str name)).state.users c = _
      rw [hok]
      exact (mapGet_mapSet _ _ _ _).trans (if_pos rfl)
    · show mapGet (handleJoinRoom s c (.str name)).state.roomUsers (trim name) = _
      rw [hok]
      exact (mapGet_mapSet _ _ _ _).trans (if_pos rfl)
    · exact mem_setAdd.mpr (Or.inr rfl)
    · intro hempty
      have hleft : (mapGet (leavePrevious s.roomUsers u).1 (trim name)).getD [] = [] := by
        by_cases hroom : u.room = some (trim name)
        · rw [leavePrevious_get_prev s.roomUsers u (trim name) hroom
            (List.length_pos.mp (by omega))]
          unfold membersOf at hempty
          cases hg : mapGet s.roomUsers (trim name) with
          | none => rfl
          | some old =>
            rw [hg] at hempty
            simp only [Option.getD_some] at hempty
            rw [hempty]
            rfl
        · rw [leavePrevious_get_other s.roomUsers u (trim name) hroom]
          exact hempty
      rw [hleft]
      rfl
  · intro hbad
    show handleJoinRoom s c (.str name) = _
    apply handleJoinRoom_bad hu
    rcases hbad with h0 | h30
    · left
      rw [sanitizeInput_eq_trim (by omega)]
      exact List.length_eq_zero.mp h0
    · right
      simp only [sanitizeInput, slice0, List.length_take]
      omega

/-- C4, on a name with a space: `alice`, in `general`, joins the new room `x y`
and is its only member. -/
theorem joinRoom_accepts_any_name_of_length_1_to_30_witness :
    ∃ members,
      (handle aliceInGeneral 1 (.joinRoom (.str roomWithSpace))).response =
        some (.joinRoom (trim roomWithSpace) members
          (handle aliceInGeneral 1 (.joinRoom (.str roomWithSpace))).state.rooms) ∧
      trim roomWithSpace ∈ (handle aliceInGeneral 1 (.joinRoom (.str roomWithSpace))).state.rooms ∧
      (handle aliceInGeneral 1 (.joinRoom (.str roomWithSpace))).state.rooms =
        (if trim roomWithSpace ∈ aliceInGeneral.rooms then aliceInGeneral.rooms
          else aliceInGeneral.rooms ++ [trim roomWithSpace]) ∧
      session (handle aliceInGeneral 1 (.joinRoom (.str roomWithSpace))).state 1 =
        some { username := alice, room := some (trim roomWithSpace) } ∧
      mapGet (handle aliceInGeneral 1 (.joinRoom (.str roomWithSpace))).state.roomUsers
        (trim roomWithSpace) = some members ∧
      alice ∈ members ∧
      (membersOf aliceInGeneral (trim roomWithSpace) = [] → members = [alice]) :=
  (joinRoom_accepts_any_name_of_length_1_to_30 aliceInGeneral 1
    { username := alice, room := some general } roomWithSpace (by decide)).1
    ⟨by decide, by decide⟩

/-- C5: in a reachable state where the session of `c` is in room `roomA`, a
`joinRoom` to a valid name other than `roomA` takes the caller out of the
members of `roomA`, emits `userLeft` with the name of the caller to `roomA`,
drops the membership set of `roomA` when it became empty and keeps `roomA` in
the room set. No request removes a name from the room set, every room list
answered is the room set after the request, and so any list answered later
holds `general` and every room created or joined before. -/
theorem switching_rooms_leaves_but_never_deletes :
    (∀ s, Reachable s → ∀ (c : ConnId) (u : User) (roomA name : JSString),
      session s c = some u → u.room = some roomA →
      1 ≤ (trim name).length → (trim name).length ≤ 30 → trim name ≠ roomA →
      u.username ∉ membersOf (handle s c (.joinRoom (.str name))).state roomA ∧
      Effect.ioEmit roomA .userLeft (.user u.username) ∈
        (handle s c (.joinRoom (.str name))).effects ∧
      mapGet (handle s c (.joinRoom (.str name))).state.roomUsers roomA =
        (if setDelete (membersOf s roomA) u.username = [] then none
          else some (setDelete (membersOf s roomA) u.username)) ∧
      roomA ∈ (handle s c (.joinRoom (.str name))).state.rooms) ∧
    (∀ s c req, s.rooms ⊆ (handle s c req).state.rooms) ∧
    (∀ s c req resp rooms, (handle s c req).response = some resp →
      resp.roomList = some rooms → rooms = (handle s c req).state.rooms) ∧
    (∀ trace c req r later c2 req2 resp rooms,
      ((∃ members rs, (handle (run initial trace) c req).response =
          some (.joinRoom r members rs)) ∨
        (∃ rs, (handle (run initial trace) c req).response = some (.createRoom r rs))) →
      (handle (run (handle (run initial trace) c req).state later) c2 req2).response =
        some resp →
      resp.roomList = some rooms →
      general ∈ rooms ∧ r ∈ rooms) := by
  refine ⟨?_, rooms_subset_handle, roomList_eq_rooms, ?_⟩
  · intro s hs c u roomA name hu hroom h1 h2 hne
    have hinv := inv_of_reachable hs
    change mapGet s.users c = some u at hu
    obtain ⟨hA, hAmem, members, hg, _⟩ := hinv.member c u roomA hu hroom
    have hsan : sanitizeInput (.str name) = trim name := sanitizeInput_eq_trim (by omega)
    have hnn : sanitizeInput (.str name) ≠ [] := by
      rw [hsan]
      exact List.length_pos.mp (by omega)
    have hok := handleJoinRoom_ok (s := s) (c := c) hu hnn (by rw [hsan]; exact h2)
    rw [hsan] at hok
    have hget : mapGet (handle s c (.joinRoom (.str name))).state.roomUsers roomA =
        (if setDelete (membersOf s roomA) u.username = [] then none
          else some (setDelete (membersOf s roomA) u.username)) := by
      show mapGet (handleJoinRoom s c (.str name)).state.roomUsers roomA = _
      rw [hok]
      show mapGet (mapSet _ _ _) roomA = _
      rw [mapGet_mapSet, if_neg hne, leavePrevious_get_prev s.roomUsers u roomA hroom hA]
      simp [membersOf, hg]
    refine ⟨?_, ?_, hget, ?_⟩
    · unfold membersOf
      rw [hget]
      by_cases he : setDelete (membersOf s roomA) u.username = []
      · simp [he]
      · simp only [he, if_false, Option.getD_some]
        intro hmem
        exact (mem_setDelete.mp hmem).2 rfl
    · show _ ∈ (handleJoinRoom s c (.str name)).effects
      rw [hok]
      show _ ∈ (leavePrevious s.roomUsers u).2 ++ _
      rw [leavePrevious_effects hroom hA hg]
      simp
    · exact rooms_subset_handle s c _ hAmem
  · intro trace c req r later c2 req2 resp rooms hent hresp hl
    have hrooms := roomList_eq_rooms _ c2 req2 resp rooms hresp hl
    rw [hrooms]
    have hsub : (handle (run initial trace) c req).state.rooms ⊆
        (handle (run (handle (run initial trace) c req).state later) c2 req2).state.rooms :=
      List.Subset.trans (rooms_subset_run _ later) (rooms_subset_handle _ c2 req2)
    constructor
    · apply hsub
      apply rooms_subset_handle
      exact (inv_run inv_initial trace).hasGeneral
    · exact hsub (entered_room_mem _ c req r hent)

/-- C5, with `alice` and `bob` in `general`: `alice` joins `lobby`; she is out
of the members of `general`, `userLeft` went to `general`, the membership set
of `general` is still there with `bob`, and `general` is still a room. -/
theorem switching_rooms_leaves_but_never_deletes_witness :
    alice ∉ membersOf (handle aliceAndBobInGeneral 1 (.joinRoom (.str lobby))).state general ∧
    Effect.ioEmit general .userLeft (.user alice) ∈
      (handle aliceAndBobInGeneral 1 (.joinRoom (.str lobby))).effects ∧
    mapGet (handle aliceAndBobInGeneral 1 (.joinRoom (.str lobby))).state.roomUsers general =
      (if setDelete (membersOf aliceAndBobInGeneral general) alice = [] then none
        else some (setDelete (membersOf aliceAndBobInGeneral general) alice)) ∧
    general ∈ (handle aliceAndBobInGeneral 1 (.joinRoom (.str lobby))).state.rooms :=
  switching_rooms_leaves_but_never_deletes.1 aliceAndBobInGeneral
    ⟨[(1, .login (.str alice)), (2, .login (.str bob)),
      (1, .joinRoom (.str general)), (2, .joinRoom (.str general))], rfl⟩
    1 { username := alice, room := some general } general lobby
    (by decide) rfl (by decide) (by decide) (by decide)

set_option maxRecDepth 100000 in
/-- C6, as observed: with `alice` logged in, a `createRoom` of `ab`, 198 spaces
and `x` succeeds. The room inserted is `ab` and 198 spaces, which does not
match the pattern, because the validity check trims its argument once more and
looks at `ab` only. -/
theorem createRoom_accepts_padded_name :
    Reachable aliceLoggedIn ∧
    session aliceLoggedIn 1 = some { username := alice, room := none } ∧
    handle aliceLoggedIn 1 (.createRoom (.str paddedName)) =
      { state :=
          { users := [(1, { username := alice, room := none })]
            rooms := [general, paddedNameCut]
            roomUsers := [] }
        response := some (.createRoom paddedNameCut [general, paddedNameCut])
        effects := [] } ∧
    paddedNameCut ∉ aliceLoggedIn.rooms ∧
    ¬ matchesNamePattern paddedNameCut := by
  refine ⟨⟨[(1, .login (.str alice))], rfl⟩, rfl, rfl, by decide, ?_⟩
  intro h
  have h20 : paddedNameCut.length ≤ 20 := h.2.1
  have h200 : paddedNameCut.length = 200 := rfl
  omega

/-- C7: a request answered with a failure leaves the session registry, the
room set and the membership map as they were and performs no transport effect,
so it emits no broadcast. -/
theorem failures_change_nothing (s : State) (c : ConnId) (req : Request) (resp : Response)
    (hresp : (handle s c req).response = some resp) (hfail : resp.isFailure = true) :
    (handle s c req).state = s ∧ (handle s c req).effects = [] := by
  cases req with
  | login data =>
    change (handleLogin s c data).response = some resp at hresp
    show (handleLogin s c data).state = s ∧ (handleLogin s c data).effects = []
    rcases handleLogin_cases s c data with ⟨_, he⟩ | ⟨_, _, he⟩ | ⟨_, _, he⟩
    · rw [he]; exact ⟨rfl, rfl⟩
    · rw [he]; exact ⟨rfl, rfl⟩
    · rw [he] at hresp
      simp only [Option.some.injEq] at hresp
      rw [← hresp] at hfail
      exact absurd hfail (by simp [Response.isFailure])
  | joinRoom data =>
    change (handleJoinRoom s c data).response = some resp at hresp
    show (handleJoinRoom s c data).state = s ∧ (handleJoinRoom s c data).effects = []
    cases hu : mapGet s.users c with
    | none =>
      have : handleJoinRoom s c data = fail s errNotLoggedIn := by
        simp [handleJoinRoom, hu]
      rw [this]
      exact ⟨rfl, rfl⟩
    | some user =>
      by_cases hbad : sanitizeInput data = [] ∨ 30 < (sanitizeInput data).length
      · rw [handleJoinRoom_bad hu hbad]
        exact ⟨rfl, rfl⟩
      · have h1 : sanitizeInput data ≠ [] := fun h0 => hbad (Or.inl h0)
        have h2 : (sanitizeInput data).length ≤ 30 := by
          by_contra h0
          exact hbad (Or.inr (by omega))
        rw [handleJoinRoom_ok hu h1 h2] at hresp
        simp only [Option.some.injEq] at hresp
        rw [← hresp] at hfail
        exact absurd hfail (by simp [Response.isFailure])
  | createRoom data =>
    change (handleCreateRoom s c data).response = some resp at hresp
    show (handleCreateRoom s c data).state = s ∧ (handleCreateRoom s c data).effects = []
    rcases handleCreateRoom_cases s c data with
      ⟨_, he⟩ | ⟨_, _, he⟩ | ⟨_, _, _, he⟩ | ⟨_, _, _, he⟩
    · rw [he]; exact ⟨rfl, rfl⟩
    · rw [he]; exact ⟨rfl, rfl⟩
    · rw [he]; exact ⟨rfl, rfl⟩
    · rw [he] at hresp
      simp only [Option.some.injEq] at hresp
      rw [← hresp] at hfail
      exact absurd hfail (by simp [Response.isFailure])
  | sendMessage data now =>
    change (handleSendMessage s c data now).response = some resp at hresp
    show (handleSendMessage s c data now).state = s ∧
      (handleSendMessage s c data now).effects = []
    rcases handleSendMessage_cases s c data now with
      ⟨_, he⟩ | ⟨_, _, _, _, _, _, he⟩ | ⟨_, _, _, _, _, _, he⟩
    · rw [he]; exact ⟨rfl, rfl⟩
    · rw [he]; exact ⟨rfl, rfl⟩
    · rw [he] at hresp
      simp only [Option.some.injEq] at hresp
      rw [← hresp] at hfail
      exact absurd hfail (by simp [Response.isFailure])
  | getRooms =>
    exact ⟨rfl, rfl⟩
  | disconnect =>
    change (handleDisconnect s c).response = some resp at hresp
    unfold handleDisconnect at hresp
    cases hu : mapGet s.users c with
    | none => simp [hu] at hresp
    | some user => simp [hu] at hresp

/-- C7, on a request of each failing kind: a `joinRoom` before any login, and a
`createRoom` of the existing room `general`, change nothing. -/
theorem failures_change_nothing_witness :
    ((handle initial 1 (.joinRoom (.str general))).state = initial ∧
      (handle initial 1 (.joinRoom (.str general))).effects = []) ∧
    ((handle aliceLoggedIn 1 (.createRoom (.str general))).state = aliceLoggedIn ∧
      (handle aliceLoggedIn 1 (.createRoom (.str general))).effects = []) :=
  ⟨failures_change_nothing initial 1 (.joinRoom (.str general)) (.failure errNotLoggedIn)
      rfl rfl,
   failures_change_nothing aliceLoggedIn 1 (.createRoom (.str general))
      (.failure errRoomExists) (by decide) rfl⟩

/-- C8: a second `disconnect` of the same connection changes nothing and has
no effect. In a reachable state, the disconnect of a session that is in a room
emits one `userLeft` with its name to the other sockets of the room, takes the
name out of the members of the room and drops the membership set when it became
empty; other rooms, the room set and other sessions are untouched and the
session is discarded. Without a current room, or without a session, nothing is
emitted and nothing changes but the removal of the session. -/
theorem disconnect_idempotent_cleanup :
    (∀ s c, handle (handle s c .disconnect).state c .disconnect =
      { state := (handle s c .disconnect).state, response := none, effects := [] }) ∧
    (∀ s, Reachable s → ∀ (c : ConnId) (u : User) (r : JSString),
      session s c = some u → u.room = some r →
      (handle s c .disconnect).effects = [.socketEmit r .userLeft (.user u.username)] ∧
      u.username ∉ membersOf (handle s c .disconnect).state r ∧
      mapGet (handle s c .disconnect).state.roomUsers r =
        (if setDelete (membersOf s r) u.username = [] then none
          else some (setDelete (membersOf s r) u.username)) ∧
      (∀ r', r' ≠ r →
        mapGet (handle s c .disconnect).state.roomUsers r' = mapGet s.roomUsers r') ∧
      (handle s c .disconnect).state.rooms = s.rooms ∧
      (handle s c .disconnect).state.users = mapDelete s.users c) ∧
    (∀ s c, (session s c = none ∨ ∃ u, session s c = some u ∧ u.room = none) →
      (handle s c .disconnect).effects = [] ∧
      (handle s c .disconnect).state = { s with users := mapDelete s.users c }) ∧
    (∀ s c, session s c = none → (handle s c .disconnect).state = s) ∧
    (∀ s c, session (handle s c .disconnect).state c = none ∧
      ∀ c', c' ≠ c → session (handle s c .disconnect).state c' = session s c') := by
  have husers : ∀ s c, (handleDisconnect s c).state.users = mapDelete s.users c := by
    intro s c
    unfold handleDisconnect
    cases hu : mapGet s.users c with
    | none =>
      show s.users = mapDelete s.users c
      unfold mapDelete
      symm
      rw [List.filter_eq_self]
      intro e he
      simp only [ne_eq, decide_eq_true_eq]
      intro hk
      have hmem : (c, e.2) ∈ s.users := by
        rw [← hk]
        exact he
      have : ∀ (m : List (ConnId × User)) (v : User), (c, v) ∈ m → mapGet m c ≠ none := by
        intro m
        induction m with
        | nil => intro v hv; simp at hv
        | cons a t ih =>
          intro v hv
          obtain ⟨k0, v0⟩ := a
          by_cases hk0 : k0 = c
          · simp [mapGet, hk0]
          · simp only [mapGet, hk0, if_false]
            rcases List.mem_cons.mp hv with h1 | h1
            · cases h1
              exact absurd rfl hk0
            · exact ih v h1
      exact this s.users e.2 hmem hu
    | some user => rfl
  have hgone : ∀ s c, mapGet (handleDisconnect s c).state.users c = none := by
    intro s c
    rw [husers, mapGet_mapDelete, if_pos rfl]
  refine ⟨?_, ?_, ?_, ?_, ?_⟩
  · intro s c
    show handleDisconnect (handleDisconnect s c).state c =
      { state := (handleDisconnect s c).state, response := none, effects := [] }
    have h := hgone s c
    generalize (handleDisconnect s c).state = s1 at h ⊢
    unfold handleDisconnect
    simp [h]
  · intro s hs c u r hu hroom
    have hinv := inv_of_reachable hs
    change mapGet s.users c = some u at hu
    obtain ⟨hr, _, members, hg, _⟩ := hinv.member c u r hu hroom
    have hp : r.isEmpty = false := by
      cases r with
      | nil => exact absurd rfl hr
      | cons a t => rfl
    have hstate : (handle s c .disconnect).state =
        { s with users := mapDelete s.users c, roomUsers := (leavePrevious s.roomUsers u).1 } := by
      show (handleDisconnect s c).state = _
      unfold handleDisconnect
      simp only [hu, leaveOnDisconnect_fst]
    have hget : mapGet (handle s c .disconnect).state.roomUsers r =
        (if setDelete (membersOf s r) u.username = [] then none
          else some (setDelete (membersOf s r) u.username)) := by
      rw [hstate]
      show mapGet (leavePrevious s.roomUsers u).1 r = _
      rw [leavePrevious_get_prev s.roomUsers u r hroom hr]
      simp [membersOf, hg]
    refine ⟨?_, ?_, hget, ?_, ?_, ?_⟩
    · show (handleDisconnect s c).effects = _
      unfold handleDisconnect
      simp only [hu]
      unfold leaveOnDisconnect
      simp [hroom, hp, hg]
    · unfold membersOf
      rw [hget]
      by_cases he : setDelete (membersOf s r) u.username = []
      · simp [he]
      · simp only [he, if_false, Option.getD_some]
        intro hmem
        exact (mem_setDelete.mp hmem).2 rfl
    · intro r' hr'
      rw [hstate]
      show mapGet (leavePrevious s.roomUsers u).1 r' = _
      apply leavePrevious_get_other
      rw [hroom]
      intro h
      exact hr' (Option.some.inj h).symm
    · rw [hstate]
    · rw [hstate]
  · intro s c h
    show (handleDisconnect s c).effects = [] ∧ (handleDisconnect s c).state = _
    rcases h with h | ⟨u, hu, hroom⟩
    · change mapGet s.users c = none at h
      have h2 := husers s c
      have h3 : handleDisconnect s c = { state := s, response := none, effects := [] } := by
        unfold handleDisconnect
        simp [h]
      rw [h3] at h2 ⊢
      refine ⟨rfl, ?_⟩
      show s = _
      rw [← h2]
    · change mapGet s.users c = some u at hu
      unfold handleDisconnect
      simp only [hu]
      unfold leaveOnDisconnect
      simp [hroom]
  · intro s c h
    change mapGet s.users c = none at h
    show (handleDisconnect s c).state = s
    unfold handleDisconnect
    simp [h]
  · intro s c
    refine ⟨hgone s c, ?_⟩
    intro c' hc
    show mapGet (handleDisconnect s c).state.users c' = mapGet s.users c'
    rw [husers, mapGet_mapDelete, if_neg (Ne.symm hc)]

/-- C8, on the third scenario of the specification: with `alice` and `bob` in
`general`, the disconnect of `bob` emits `userLeft` with his name to the others
in the room and leaves `alice` as the only member. -/
theorem disconnect_idempotent_cleanup_witness :
    (handle aliceAndBobInGeneral 2 .disconnect).effects =
      [.socketEmit general .userLeft (.user bob)] ∧
    bob ∉ membersOf (handle aliceAndBobInGeneral 2 .disconnect).state general ∧
    mapGet (handle aliceAndBobInGeneral 2 .disconnect).state.roomUsers general =
      (if setDelete (membersOf aliceAndBobInGeneral general) bob = [] then none
        else some (setDelete (membersOf aliceAndBobInGeneral general) bob)) ∧
    (∀ r', r' ≠ general →
      mapGet (handle aliceAndBobInGeneral 2 .disconnect).state.roomUsers r' =
        mapGet aliceAndBobInGeneral.roomUsers r') ∧
    (handle aliceAndBobInGeneral 2 .disconnect).state.rooms = aliceAndBobInGeneral.rooms ∧
    (handle aliceAndBobInGeneral 2 .disconnect).state.users =
      mapDelete aliceAndBobInGeneral.users 2 :=
  disconnect_idempotent_cleanup.2.1 aliceAndBobInGeneral
    ⟨[(1, .login (.str alice)), (2, .login (.str bob)),
      (1, .joinRoom (.str general)), (2, .joinRoom (.str general))], rfl⟩
    2 { username := bob, room := some general } general (by decide) rfl

set_option maxRecDepth 100000 in
/-- C9, as observed: `alice` in `general` sends 199 times `a`, a space and `b`.
The text is already trimmed, the cut to 200 code units drops the `b`, and the
broadcast text ends with the space. -/
theorem broadcast_text_trailing_space :
    Reachable aliceInGeneral ∧
    (handle aliceInGeneral 1 (.sendMessage (.str longMessage) [])).effects =
      [.ioEmit general .newMessage (.message alice longMessageCut [])] ∧
    longMessageCut.getLast? = some 32 ∧
    isWhiteSpace 32 = true ∧
    ¬ noTrailingWhiteSpace longMessageCut := by
  refine ⟨⟨[(1, .login (.str alice)), (1, .joinRoom (.str general))], rfl⟩, rfl, rfl, rfl, ?_⟩
  intro h
  exact absurd (h 32 rfl) (by decide)

/-- C9, amended: the text of every broadcast message is the sanitized input,
has between 1 and 200 code units and does not start with white space; it does
not end with white space either when the trimmed input has at most 200 code
units, that is when nothing was cut. -/
theorem broadcast_text_bounds (s : State) (c : ConnId) (data : JSValue) (now : JSString)
    (room : JSString) (event : EventName) (payload : Payload)
    (h : Effect.ioEmit room event payload ∈ (handle s c (.sendMessage data now)).effects ∨
      Effect.socketEmit room event payload ∈ (handle s c (.sendMessage data now)).effects) :
    ∃ sender text, payload = .message sender text now ∧
      text = sanitizeInput data ∧
      1 ≤ text.length ∧ text.length ≤ 200 ∧
      noLeadingWhiteSpace text ∧
      (∀ input, data = .str input → (trim input).length ≤ 200 → noTrailingWhiteSpace text) := by
  change Effect.ioEmit room event payload ∈ (handleSendMessage s c data now).effects ∨
    Effect.socketEmit room event payload ∈ (handleSendMessage s c data now).effects at h
  rcases handleSendMessage_cases s c data now with
    ⟨_, he⟩ | ⟨_, _, _, _, _, _, he⟩ | ⟨u, r, _, _, _, hm, he⟩
  · rw [he] at h
    simp [fail] at h
  · rw [he] at h
    simp [fail] at h
  · rw [he] at h
    simp only [List.mem_singleton, Effect.ioEmit.injEq, reduceCtorEq, or_false] at h
    obtain ⟨_, _, hp⟩ := h
    refine ⟨u.username, sanitizeInput data, hp, rfl, List.length_pos.mpr hm,
      sanitizeInput_length_le data, sanitizeInput_noLeading data, ?_⟩
    intro input hd hlen
    rw [hd]
    exact sanitizeInput_noTrailing hlen

/-- C9, amended, on the second scenario of the specification: the text `hi`
sent by `alice` in `general` is broadcast unchanged. -/
theorem broadcast_text_bounds_witness :
    ∃ sender text, Payload.message alice hi [] = .message sender text [] ∧
      text = sanitizeInput (.str hi) ∧
      1 ≤ text.length ∧ text.length ≤ 200 ∧
      noLeadingWhiteSpace text ∧
      (∀ input, JSValue.str hi = .str input → (trim input).length ≤ 200 →
        noTrailingWhiteSpace text) :=
  broadcast_text_bounds aliceInGeneral 1 (.str hi) [] general .newMessage
    (.message alice hi []) (Or.inl (by decide))

/-- C10, as observed: on one connection `alice` logs in and joins `general`,
then a login as `bob` is received. The session is replaced by `bob` without
room, while `alice` stays in the membership set of `general`: a member that no
session has as its name. -/
theorem second_login_leaves_stale_member :
    Reachable loggedInAgain ∧
    loggedInAgain.users = [(1, { username := bob, room := none })] ∧
    loggedInAgain.roomUsers = [(general, [alice])] ∧
    alice ∈ membersOf loggedInAgain general ∧
    ¬ ∃ c u, session loggedInAgain c = some u ∧ u.username = alice ∧ u.room = some general := by
  refine ⟨⟨[(1, .login (.str alice)), (1, .joinRoom (.str general)), (1, .login (.str bob))],
    rfl⟩, rfl, rfl, by decide, ?_⟩
  rintro ⟨c, u, hu, hname, _⟩
  have hmem : (c, u) ∈ loggedInAgain.users := mem_of_mapGet hu
  have husers : loggedInAgain.users = [(1, { username := bob, room := none })] := rfl
  rw [husers] at hmem
  simp only [List.mem_singleton, Prod.mk.injEq] at hmem
  rw [hmem.2] at hname
  exact absurd hname (by decide)

end ChatServer
